import Mathlib

/-!
Verification of the beltmatic-calc expression-search program (src/main.rs).

The program enumerates all fully parenthesised arithmetic expressions over
operand slots ranging in 1..=max_number and operator slots ranging over a
configured operator list, for every expression size from 1 to max_size, and
records for every attainable integer value the minimal size and the list of
expression strings of that size producing it.

The shallow embedding below translates the Rust source:
  - trees hold slot indices instead of shared mutable Rc cells; evaluation
    and rendering take the current slot contents as explicit lists;
  - Rust i32 arithmetic is modelled by unbounded Int (overflow is out of
    scope per the design notes); i32 division truncates toward zero, which
    is Int.tdiv;
  - the two while-loop odometers are modelled by step functions plus an
    explicit iteration list (runList / runOps) with fuel; the fuel is
    always at least the number of states actually visited for the
    configurations considered by the theorems, which is proved where used;
  - HashMap<i32, (usize, Vec<String>)> is modelled by an association list
    that is only ever accessed by key;
  - a reachable .unwrap() / out-of-bounds panic is modelled by an explicit
    panic outcome.
-/

namespace Beltmatic

/-- The Operation enum (main.rs lines 4-10). -/
inductive Operation
  | ADD
  | MULT
  | DIV
  | SUB
deriving DecidableEq

/-- The Display impl for Operation (main.rs lines 22-31). -/
def Operation.symbol : Operation → String
  | .ADD => "+"
  | .SUB => "-"
  | .MULT => "*"
  | .DIV => "/"

/-- Expression-tree nodes (NumNode / BinaryNode, main.rs lines 37-106).
A NumNode holds a reference to one operand slot and a BinaryNode a reference
to one operator slot; in the embedding the references are slot indices. -/
inductive STree
  | num (slot : Nat)
  | binary (left right : STree) (opSlot : Nat)
deriving DecidableEq

/-- Node::eval (main.rs lines 47-51 and 75-96).  The slot contents are the
lists ints and ops; generated trees only ever reference slots in range, so
the getD defaults are never exercised by the driver.  The DIV branch
filters out a zero right value before dividing, and i32 division truncates
toward zero (Int.tdiv). -/
def evalT (ints : List Int) (ops : List Operation) : STree → Option Int
  | .num s => some (ints.getD s 0)
  | .binary l r o =>
    match ops.getD o .ADD with
    | .ADD => (evalT ints ops l).bind fun a => (evalT ints ops r).map fun b => a + b
    | .SUB => (evalT ints ops l).bind fun a => (evalT ints ops r).map fun b => a - b
    | .MULT => (evalT ints ops l).bind fun a => (evalT ints ops r).map fun b => a * b
    | .DIV => (evalT ints ops l).bind fun a =>
        (Option.filter (fun b => b != 0) (evalT ints ops r)).map fun b => Int.tdiv a b

/-- The Display impls (main.rs lines 41-45 and 65-73): a leaf renders as the
decimal value of its slot, a binary node as (left symbol right). -/
def renderT (ints : List Int) (ops : List Operation) : STree → String
  | .num s => toString (ints.getD s 0)
  | .binary l r o =>
    "(" ++ renderT ints ops l ++ (ops.getD o .ADD).symbol ++ renderT ints ops r ++ ")"

/-- calculate_parenthesisations (main.rs lines 135-167), with an explicit
fuel argument for termination; the wrapper below instantiates the fuel with
the width of the range, which is always sufficient (calcParenF_fuel). -/
def calcParenF : Nat → Nat → Nat → List STree
  | 0, _, _ => []
  | fuel + 1, left, right =>
    if left + 1 = right then [STree.num left]
    else if left + 2 = right then
      [STree.binary (STree.num left) (STree.num (left + 1)) left]
    else
      (List.range' (left + 1) (right - left - 1)).flatMap fun i =>
        (calcParenF fuel left i).flatMap fun leftNode =>
          (calcParenF fuel i right).map fun rightNode =>
            STree.binary leftNode rightNode (i - 1)

/-- calculate_parenthesisations(left, right, nodes, operations): the node and
operator-slot arrays are implicit (trees store slot indices). -/
def calculate_parenthesisations (left right : Nat) : List STree :=
  calcParenF (right - left) left right

/-- The Composed struct built by make_options (main.rs lines 108-133):
operand slots initialised to 0, operator slots initialised to ADD, and the
list of all tree shapes over the size leaves. -/
structure Composed where
  ints : List Int
  ops : List Operation
  alternatives : List STree
deriving DecidableEq

/-- make_options (main.rs lines 114-133). -/
def make_options (size : Nat) : Composed :=
  { ints := List.replicate size 0
    ops := List.replicate (size - 1) Operation.ADD
    alternatives := calculate_parenthesisations 0 size }

/-- Parsing of one operator token (main.rs lines 180-200). -/
def parseOperation (s : String) : Option Operation :=
  if s = "+" then some .ADD
  else if s = "-" then some .SUB
  else if s = "*" then some .MULT
  else if s = "/" then some .DIV
  else none

/-- OperationDictionary (main.rs lines 169-223).  The indexes HashMap is
built by inserting each recognised operator at its position in order, later
inserts overwriting earlier ones, so it maps an operator to its last
position in the operations vector; the embedding derives that map from the
vector (lastPos below) instead of storing it separately. -/
structure OperationDictionary where
  operations : List Operation
deriving DecidableEq

/-- Position of the last occurrence of o in a list (the contents of the
indexes HashMap for a key that is present). -/
def lastPos (o : Operation) : List Operation → Option Nat
  | [] => none
  | x :: xs =>
    match lastPos o xs with
    | some i => some (i + 1)
    | none => if x = o then some 0 else none

/-- OperationDictionary::new (main.rs lines 175-210): scans all tokens,
pushing the recognised ones and flagging an error on any unrecognised one;
returns None iff the error flag was set. -/
def OperationDictionary.new (options : List String) : Option OperationDictionary :=
  let r := options.foldl
    (fun (acc : List Operation × Bool) s =>
      match parseOperation s with
      | some o => (acc.1 ++ [o], acc.2)
      | none => (acc.1, true))
    ([], false)
  if r.2 then none else some { operations := r.1 }

/-- OperationDictionary::operation (main.rs lines 212-214); out-of-range
indexing panics in Rust, which the callers below surface as a panic
outcome. -/
def OperationDictionary.operation (d : OperationDictionary) (index : Nat) : Option Operation :=
  d.operations.get? index

/-- OperationDictionary::index (main.rs lines 216-218); the unwrap of a
missing key panics in Rust, surfaced by the callers as a panic outcome. -/
def OperationDictionary.index (d : OperationDictionary) (o : Operation) : Option Nat :=
  lastPos o d.operations

/-- OperationDictionary::max_operation (main.rs lines 220-222). -/
def OperationDictionary.max_operation (d : OperationDictionary) : Option Operation :=
  d.operations.getLast?

/-- One increment-with-carry step of the operand odometer (main.rs lines
271-281): scan from slot 0, resetting slots equal to the limit to 1; the
first slot below the limit is incremented; none means every slot was at the
limit and the inner loop is finished. -/
def incInts (limit : Int) : List Int → Option (List Int)
  | [] => none
  | d :: ds =>
    if d = limit then (incInts limit ds).map fun t => 1 :: t
    else some ((d + 1) :: ds)

/-- The list of states visited by iterating a step function, given fuel. -/
def runList {α : Type} (step : α → Option α) : Nat → α → List α
  | 0, _ => []
  | fuel + 1, a =>
    a :: (match step a with
      | none => []
      | some b => runList step fuel b)

/-- Outcome of one operator-odometer step. -/
inductive OpStep
  | finished
  | next (ops : List Operation)
  | panicked
deriving DecidableEq

/-- One increment-with-carry step of the operator odometer (main.rs lines
284-296): scan from slot 0, resetting slots equal to max_operation() to
operation(0); the first other slot is replaced by the operation after its
index; panicked marks a reachable Rust panic (index unwrap on a missing
operator, or out-of-range operations indexing). -/
def incOps (d : OperationDictionary) : List Operation → OpStep
  | [] => .finished
  | o :: os =>
    match d.max_operation with
    | none => .panicked
    | some mx =>
      if o = mx then
        match d.operation 0 with
        | none => .panicked
        | some o0 =>
          match incOps d os with
          | .finished => .finished
          | .next os' => .next (o0 :: os')
          | .panicked => .panicked
      else
        match d.index o with
        | none => .panicked
        | some i =>
          match d.operation (i + 1) with
          | none => .panicked
          | some o' => .next (o' :: os)

/-- The operator assignments visited by the outer while loop for one size,
paired with whether the run ended in a panic.  Each visited assignment is
fully processed by the inner loop before the increment that may finish or
panic, so it is recorded either way. -/
def runOps (d : OperationDictionary) : Nat → List Operation → List (List Operation) × Bool
  | 0, _ => ([], false)
  | fuel + 1, ops =>
    match incOps d ops with
    | .finished => ([ops], false)
    | .panicked => ([ops], true)
    | .next ops' =>
      let r := runOps d fuel ops'
      (ops :: r.1, r.2)

/-- The result table: HashMap<i32, (usize, Vec<String>)> as an association
list accessed only by key. -/
abbrev Dict := List (Int × Nat × List String)

def dictLookup (dict : Dict) (v : Int) : Option (Nat × List String) :=
  match dict with
  | [] => none
  | e :: rest => if e.1 = v then some e.2 else dictLookup rest v

def dictSet (dict : Dict) (v : Int) (entry : Nat × List String) : Dict :=
  match dict with
  | [] => []
  | e :: rest => if e.1 = v then (v, entry) :: rest else e :: dictSet rest v entry

/-- The mutable driver state: the result table and maximum_composed. -/
structure SearchSt where
  dict : Dict
  maximum_composed : Int
deriving DecidableEq

/-- Processing of one alternative for the current assignment (main.rs lines
256-269): an undefined evaluation is skipped; otherwise maximum_composed is
raised if exceeded, a missing key is inserted with the current size and a
one-element string list, and an existing entry gets the rendered string
appended exactly when its stored size equals the current size. -/
def processAlt (size : Nat) (ops : List Operation) (ints : List Int)
    (st : SearchSt) (t : STree) : SearchSt :=
  match evalT ints ops t with
  | none => st
  | some v =>
    let st1 : SearchSt :=
      if st.maximum_composed < v then { st with maximum_composed := v } else st
    match dictLookup st1.dict v with
    | none => { st1 with dict := (v, (size, [renderT ints ops t])) :: st1.dict }
    | some (sz, options) =>
      if sz = size then
        { st1 with dict := dictSet st1.dict v (sz, options ++ [renderT ints ops t]) }
      else st1

/-- The operand assignments visited by the inner while loop: slots are reset
to 1, then the odometer runs to exhaustion (main.rs lines 250-282).  The
fuel limit^size is exactly the number of assignments when limit >= 1. -/
def visitedValAssigns (limit : Int) (size : Nat) : List (List Int) :=
  runList (incInts limit) (limit.toNat ^ size) (List.replicate size (1 : Int))

/-- One iteration of the outer loop body for a fixed operator assignment:
the inner loop evaluates every alternative for every operand assignment. -/
def processOpAssign (m : Int) (size : Nat) (shapes : List STree)
    (st : SearchSt) (ops : List Operation) : SearchSt :=
  (visitedValAssigns m size).foldl
    (fun st ints => shapes.foldl (processAlt size ops ints) st) st

/-- Fuel for the operator odometer; at least the k^(size-1) states of a
well-behaved run (k = number of configured operators). -/
def opsFuel (d : OperationDictionary) (size : Nat) : Nat :=
  (d.operations.length + 1) ^ (size - 1)

/-- The operator assignments visited for one size, starting from the
ADD-initialised slots of make_options. -/
def visitedOpAssigns (d : OperationDictionary) (size : Nat) : List (List Operation) :=
  (runOps d (opsFuel d size) (make_options size).ops).1

/-- Whether the operator odometer run for this size ends in a panic. -/
def sizePanics (d : OperationDictionary) (size : Nat) : Bool :=
  (runOps d (opsFuel d size) (make_options size).ops).2

/-- The body of the per-size driver loop (main.rs lines 246-298): build the
shapes once, then for every visited operator assignment run the inner
operand loop over all alternatives. -/
def sizeProcess (m : Int) (d : OperationDictionary) (size : Nat)
    (st : SearchSt) : SearchSt :=
  (visitedOpAssigns d size).foldl
    (processOpAssign m size (make_options size).alternatives) st

/-- The outcome of a run of main. -/
inductive RunResult
  | configError (msg : String)
  | panicked
  | ok (st : SearchSt)
deriving DecidableEq

def initialState : SearchSt := { dict := [], maximum_composed := 1 }

/-- The search phase of main: sizes 1..=max_size in increasing order; a
panic aborts the run. -/
def runSearch (m : Int) (d : OperationDictionary) (max_size : Nat) : RunResult :=
  (List.range' 1 max_size).foldl
    (fun acc size =>
      match acc with
      | RunResult.ok st =>
        if sizePanics d size then RunResult.panicked
        else RunResult.ok (sizeProcess m d size st)
      | other => other)
    (RunResult.ok initialState)

/-- Rust str::split with a one-character separator, on the character list
of the string: "".split(",") yields [""], and every separator occurrence
delimits a (possibly empty) field. -/
def splitCommaChars : List Char → List (List Char)
  | [] => [[]]
  | c :: rest =>
    if c = ',' then [] :: splitCommaChars rest
    else
      match splitCommaChars rest with
      | [] => [[c]]
      | g :: gs => (c :: g) :: gs

/-- operations_arg.split(",") (main.rs line 232). -/
def splitComma (s : String) : List String :=
  (splitCommaChars s.toList).map fun cs => String.mk cs

/-- main (main.rs lines 225-310) up to the final printing: validate
max_number, parse the operator list (defaulting to "+,-,*,/"), build the
dictionary, and run the search. -/
def runMain (max_number : Int) (max_size : Nat) (operations : Option String) : RunResult :=
  if max_number ≤ 0 then
    RunResult.configError "max_number must be > 0"
  else
    let operations_arg := operations.getD "+,-,*,/"
    let opts := splitComma operations_arg
    match OperationDictionary.new opts with
    | none => RunResult.configError "unrecognised operations found, allowed=[+,-,*,/]"
    | some d => runSearch max_number d max_size

/-! ## Shape structure: leaves and operator slots of a tree -/

/-- The leaf (operand-slot) indices of a tree, left to right. -/
def leavesOf : STree → List Nat
  | .num s => [s]
  | .binary l r _ => leavesOf l ++ leavesOf r

/-- The operator-slot indices referenced by a tree. -/
def opsOf : STree → List Nat
  | .num _ => []
  | .binary l r o => opsOf l ++ opsOf r ++ [o]

/-- Structural well-formedness of a shape over the leaf range [l, r): the
leaves are l, l+1, ..., r-1 in order and every binary node formed at a
split boundary m carries operator slot m-1 (the slot immediately preceding
the boundary). -/
def shapeOK : STree → Nat → Nat → Bool
  | .num s, l, r => s == l && r == l + 1
  | .binary a b o, l, r =>
    let m := l + (leavesOf a).length
    shapeOK a l m && shapeOK b m r && (o + 1 == m)

/-! ## Basic lemmas about calculate_parenthesisations -/

theorem flatMap_congr_mem {α β : Type} {f g : α → List β} :
    ∀ (l : List α), (∀ a ∈ l, f a = g a) → l.flatMap f = l.flatMap g := by
  intro l
  induction l with
  | nil => intro _; rfl
  | cons x xs ih =>
    intro h
    simp only [List.flatMap_cons]
    rw [h x (List.mem_cons_self x xs), ih (fun a ha => h a (List.mem_cons_of_mem x ha))]

theorem calcParenF_degenerate (fuel left right : Nat) (h : right ≤ left) :
    calcParenF fuel left right = [] := by
  cases fuel with
  | zero => rfl
  | succ n =>
    have h1 : ¬(left + 1 = right) := by omega
    have h2 : ¬(left + 2 = right) := by omega
    have h3 : right - left - 1 = 0 := by omega
    simp [calcParenF, h1, h2, h3]

theorem calcParenF_fuel :
    ∀ (f1 f2 left right : Nat), right - left ≤ f1 → right - left ≤ f2 →
      calcParenF f1 left right = calcParenF f2 left right := by
  intro f1
  induction f1 with
  | zero =>
    intro f2 left right h1 _
    rw [calcParenF_degenerate 0 left right (by omega),
      calcParenF_degenerate f2 left right (by omega)]
  | succ a ih =>
    intro f2 left right h1 h2
    by_cases hlr : right ≤ left
    · rw [calcParenF_degenerate _ _ _ hlr, calcParenF_degenerate _ _ _ hlr]
    cases f2 with
    | zero =>
      rw [calcParenF_degenerate _ _ _ (by omega), calcParenF_degenerate _ _ _ (by omega)]
    | succ b =>
      simp only [calcParenF]
      by_cases hc1 : left + 1 = right
      · simp [hc1]
      by_cases hc2 : left + 2 = right
      · simp [hc1, hc2]
      simp only [if_neg hc1, if_neg hc2]
      apply flatMap_congr_mem
      intro i hi
      rw [List.mem_range'_1] at hi
      have hia : i - left ≤ a := by omega
      have hib : right - i ≤ a := by omega
      have hia2 : i - left ≤ b := by omega
      have hib2 : right - i ≤ b := by omega
      rw [ih b left i hia hia2, ih b i right hib hib2]

theorem calculate_parenthesisations_unfold (l r : Nat) :
    calculate_parenthesisations l r =
      if l + 1 = r then [STree.num l]
      else if l + 2 = r then [STree.binary (STree.num l) (STree.num (l + 1)) l]
      else
        (List.range' (l + 1) (r - l - 1)).flatMap fun i =>
          (calculate_parenthesisations l i).flatMap fun ln =>
            (calculate_parenthesisations i r).map fun rn =>
              STree.binary ln rn (i - 1) := by
  unfold calculate_parenthesisations
  cases hw : r - l with
  | zero =>
    have hle : r ≤ l := by omega
    rw [calcParenF_degenerate 0 l r hle]
    have h1 : ¬(l + 1 = r) := by omega
    have h2 : ¬(l + 2 = r) := by omega
    have h3 : r - l - 1 = 0 := by omega
    simp [h1, h2, h3]
  | succ n =>
    simp only [calcParenF]
    by_cases hc1 : l + 1 = r
    · simp [hc1]
    by_cases hc2 : l + 2 = r
    · simp [hc1, hc2]
    simp only [if_neg hc1, if_neg hc2]
    rw [hw]
    apply flatMap_congr_mem
    intro i hi
    rw [List.mem_range'_1] at hi
    rw [calcParenF_fuel n (i - l) l i (by omega) (by omega),
      calcParenF_fuel n (r - i) i r (by omega) (by omega)]

/-- A well-formed shape spans a nonempty range and its leaves are exactly
the range [l, r) in order. -/
theorem shapeOK_leaves :
    ∀ (t : STree) (l r : Nat), shapeOK t l r = true →
      l < r ∧ leavesOf t = List.range' l (r - l) := by
  intro t
  induction t with
  | num s =>
    intro l r h
    simp only [shapeOK, Bool.and_eq_true, beq_iff_eq] at h
    obtain ⟨hs, hr⟩ := h
    subst hs
    constructor
    · omega
    · rw [show r - s = 1 from by omega]
      simp [leavesOf]
  | binary a b o iha ihb =>
    intro l r h
    simp only [shapeOK, Bool.and_eq_true, beq_iff_eq] at h
    obtain ⟨⟨ha, hb⟩, _⟩ := h
    obtain ⟨hlm, hal⟩ := iha l (l + (leavesOf a).length) ha
    obtain ⟨hmr, hbl⟩ := ihb (l + (leavesOf a).length) r hb
    refine ⟨by omega, ?_⟩
    simp only [leavesOf]
    rw [hal, hbl]
    rw [show l + (leavesOf a).length - l = (leavesOf a).length from by omega]
    have := List.range'_append l (leavesOf a).length (r - (l + (leavesOf a).length)) 1
    simp only [one_mul] at this
    rw [this]
    congr 1
    omega

/-- A well-formed shape over [l, r) references exactly the operator slots
l, ..., r-2, one each. -/
theorem shapeOK_opsOf :
    ∀ (t : STree) (l r : Nat), shapeOK t l r = true →
      (opsOf t).Perm (List.range' l (r - l - 1)) := by
  intro t
  induction t with
  | num s =>
    intro l r h
    simp only [shapeOK, Bool.and_eq_true, beq_iff_eq] at h
    rw [show r - l - 1 = 0 from by omega]
    simp [opsOf]
  | binary a b o iha ihb =>
    intro l r h
    have hOK := h
    simp only [shapeOK, Bool.and_eq_true, beq_iff_eq] at h
    obtain ⟨⟨ha, hb⟩, ho⟩ := h
    set m := l + (leavesOf a).length with hm
    obtain ⟨hlm, _⟩ := shapeOK_leaves a l m ha
    obtain ⟨hmr, _⟩ := shapeOK_leaves b m r hb
    have pa := iha l m ha
    have pb := ihb m r hb
    simp only [opsOf]
    have hsplit : List.range' l (r - l - 1) =
        (List.range' l (m - l - 1) ++ [m - 1]) ++ List.range' m (r - m - 1) := by
      have h1 : List.range' l (m - l - 1) ++ [m - 1] = List.range' l (m - l) := by
        have := @List.range'_concat 1 l (m - l - 1)
        simp only [one_mul] at this
        rw [show l + (m - l - 1) = m - 1 from by omega] at this
        rw [← this]
        congr 1
        omega
      rw [h1]
      have := List.range'_append l (m - l) (r - m - 1) 1
      simp only [one_mul] at this
      rw [show l + (m - l) = m from by omega] at this
      rw [this]
      congr 1
      omega
    rw [hsplit]
    have step1 : (opsOf a ++ opsOf b ++ [o]).Perm (opsOf a ++ [o] ++ opsOf b) := by
      rw [List.append_assoc, List.append_assoc]
      exact List.Perm.append_left (opsOf a) List.perm_append_comm
    refine step1.trans ?_
    refine List.Perm.append ?_ pb
    refine List.Perm.append pa ?_
    rw [show o = m - 1 from by omega]

/-- Every tree produced by calculate_parenthesisations over a nonempty
range is a well-formed shape over that range: in particular each binary
node formed at a split boundary m uses operator slot m-1. -/
theorem shapeOK_of_mem :
    ∀ (w l r : Nat), r - l = w → 1 ≤ w →
      ∀ t ∈ calculate_parenthesisations l r, shapeOK t l r = true := by
  intro w
  induction w using Nat.strong_induction_on with
  | _ w ih =>
    intro l r hw h1 t ht
    rw [calculate_parenthesisations_unfold] at ht
    by_cases hc1 : l + 1 = r
    · rw [if_pos hc1] at ht
      simp only [List.mem_singleton] at ht
      subst ht
      simp only [shapeOK, Bool.and_eq_true, beq_iff_eq]
      exact ⟨trivial, by omega⟩
    by_cases hc2 : l + 2 = r
    · rw [if_neg hc1, if_pos hc2] at ht
      simp only [List.mem_singleton] at ht
      subst ht
      simp only [shapeOK, leavesOf, Bool.and_eq_true, beq_iff_eq, List.length_singleton,
        List.length_append]
      exact ⟨⟨⟨trivial, trivial⟩, trivial, by omega⟩, trivial⟩
    rw [if_neg hc1, if_neg hc2] at ht
    rw [List.mem_flatMap] at ht
    obtain ⟨i, hi, hti⟩ := ht
    rw [List.mem_range'_1] at hi
    rw [List.mem_flatMap] at hti
    obtain ⟨ln, hln, htl⟩ := hti
    rw [List.mem_map] at htl
    obtain ⟨rn, hrn, hteq⟩ := htl
    subst hteq
    have hbound : l + 1 ≤ i ∧ i + 1 ≤ r ∧ l + 3 ≤ r := by omega
    have hOKl : shapeOK ln l i = true :=
      ih (i - l) (by omega) l i rfl (by omega) ln hln
    have hOKr : shapeOK rn i r = true :=
      ih (r - i) (by omega) i r rfl (by omega) rn hrn
    have hlen : (leavesOf ln).length = i - l := by
      obtain ⟨_, hleq⟩ := shapeOK_leaves ln l i hOKl
      rw [hleq, List.length_range']
    simp only [shapeOK, Bool.and_eq_true, beq_iff_eq, hlen]
    rw [show l + (i - l) = i from by omega]
    exact ⟨⟨hOKl, hOKr⟩, by omega⟩

theorem listSum_map_range (f : Nat → Nat) :
    ∀ n, ((List.range n).map f).sum = ∑ i ∈ Finset.range n, f i := by
  intro n
  induction n with
  | zero => simp
  | succ k ih =>
    rw [List.range_succ, List.map_append, List.sum_append, Finset.sum_range_succ, ih]
    simp

theorem sum_map_constant {α : Type} (l : List α) (c : Nat) :
    (l.map (fun _ => c)).sum = l.length * c := by
  induction l with
  | nil => simp
  | cons x xs ih =>
    simp only [List.map_cons, List.sum_cons, ih, List.length_cons]
    ring

/-- The number of shapes over a range of width w is the (w-1)-st Catalan
number. -/
theorem calcParen_length :
    ∀ (w l r : Nat), r - l = w → 1 ≤ w →
      (calculate_parenthesisations l r).length = catalan (w - 1) := by
  intro w
  induction w using Nat.strong_induction_on with
  | _ w ih =>
    intro l r hw h1
    rw [calculate_parenthesisations_unfold]
    by_cases hc1 : l + 1 = r
    · rw [if_pos hc1]
      rw [show w - 1 = 0 from by omega]
      simp
    by_cases hc2 : l + 2 = r
    · rw [if_neg hc1, if_pos hc2]
      rw [show w - 1 = 1 from by omega]
      simp [catalan_one]
    rw [if_neg hc1, if_neg hc2, List.length_flatMap]
    have hw3 : 3 ≤ w := by
      rcases Nat.lt_or_ge w 3 with h | h
      · interval_cases w <;> omega
      · exact h
    have hpt : ∀ i ∈ List.range' (l + 1) (r - l - 1),
        (List.length ∘ fun i =>
          (calculate_parenthesisations l i).flatMap fun ln =>
            (calculate_parenthesisations i r).map fun rn =>
              STree.binary ln rn (i - 1)) i =
        catalan (i - l - 1) * catalan (r - i - 1) := by
      intro i hi
      rw [List.mem_range'_1] at hi
      simp only [Function.comp_apply, List.length_flatMap]
      have hinner : ∀ ln ∈ calculate_parenthesisations l i,
          (List.length ∘ fun ln =>
            (calculate_parenthesisations i r).map fun rn =>
              STree.binary ln rn (i - 1)) ln =
          (calculate_parenthesisations i r).length := by
        intro ln _
        simp
      rw [List.map_congr_left hinner, sum_map_constant,
        ih (i - l) (by omega) l i rfl (by omega),
        ih (r - i) (by omega) i r rfl (by omega)]
    rw [List.map_congr_left hpt]
    rw [show r - l - 1 = w - 1 from by omega]
    rw [List.range'_eq_map_range, List.map_map]
    have hpt2 : ∀ j ∈ List.range (w - 1),
        ((fun i => catalan (i - l - 1) * catalan (r - i - 1)) ∘ fun x => l + 1 + x) j =
        catalan j * catalan (w - 2 - j) := by
      intro j hj
      rw [List.mem_range] at hj
      simp only [Function.comp_apply]
      congr 1 <;> congr 1 <;> omega
    rw [List.map_congr_left hpt2, listSum_map_range]
    have hcs : catalan ((w - 2) + 1) = ∑ i ∈ Finset.range ((w - 2) + 1), catalan i * catalan (w - 2 - i) := by
      rw [catalan_succ, Fin.sum_univ_eq_sum_range (fun i => catalan i * catalan (w - 2 - i)) ((w - 2) + 1)]
    rw [show w - 1 = (w - 2) + 1 from by omega, hcs]

/-- The shape list for any range contains no duplicate tree. -/
theorem calcParen_nodup :
    ∀ (w l r : Nat), r - l = w → (calculate_parenthesisations l r).Nodup := by
  intro w
  induction w using Nat.strong_induction_on with
  | _ w ih =>
    intro l r hw
    rw [calculate_parenthesisations_unfold]
    by_cases hc1 : l + 1 = r
    · rw [if_pos hc1]; exact List.nodup_singleton _
    by_cases hc2 : l + 2 = r
    · rw [if_neg hc1, if_pos hc2]; exact List.nodup_singleton _
    rw [if_neg hc1, if_neg hc2, List.nodup_flatMap]
    constructor
    · intro i hi
      rw [List.mem_range'_1] at hi
      rw [List.nodup_flatMap]
      constructor
      · intro ln _
        apply List.Nodup.map
        · intro x y hxy
          simpa [STree.binary.injEq] using hxy
        · exact ih (r - i) (by omega) i r rfl
      · have hnd : (calculate_parenthesisations l i).Nodup := ih (i - l) (by omega) l i rfl
        apply List.Pairwise.imp ?_ hnd
        intro a b hne
        simp only [Function.onFun]
        intro x hx hx'
        rw [List.mem_map] at hx hx'
        obtain ⟨rn, _, hxe⟩ := hx
        obtain ⟨rn', _, hxe'⟩ := hx'
        rw [← hxe] at hxe'
        simp only [STree.binary.injEq] at hxe'
        exact hne hxe'.1.symm
    · have hnd : (List.range' (l + 1) (r - l - 1)).Nodup := List.nodup_range' _ _
      apply List.Pairwise.imp_of_mem ?_ hnd
      intro i i' hi hi' hne
      rw [List.mem_range'_1] at hi hi'
      simp only [Function.onFun]
      intro x hx hx'
      rw [List.mem_flatMap] at hx hx'
      obtain ⟨ln, _, hx⟩ := hx
      obtain ⟨ln', _, hx'⟩ := hx'
      rw [List.mem_map] at hx hx'
      obtain ⟨rn, _, hxe⟩ := hx
      obtain ⟨rn', _, hxe'⟩ := hx'
      rw [← hxe] at hxe'
      simp only [STree.binary.injEq] at hxe'
      have : i - 1 = i' - 1 := hxe'.2.2.symm
      exact hne (by omega)

theorem catalan_four : catalan 4 = 14 := by
  show catalan (3 + 1) = 14
  rw [catalan_succ]
  simp [Fin.sum_univ_succ, catalan_two, catalan_three]

/-- Claim C2: for every leaf count n >= 1, calculate_parenthesisations over
the range [0, n) returns exactly catalan (n-1) trees (1, 1, 2, 5, 14 for
n = 1..5), pairwise distinct, and each tree is a full binary-tree shape
whose leaves are the n ordered leaf slots 0..n-1. -/
theorem claim_C2 (n : Nat) (hn : 1 ≤ n) :
    (calculate_parenthesisations 0 n).length = catalan (n - 1) ∧
    (calculate_parenthesisations 0 n).Nodup ∧
    ∀ t ∈ calculate_parenthesisations 0 n, leavesOf t = List.range' 0 n := by
  refine ⟨calcParen_length n 0 n (by omega) hn, calcParen_nodup n 0 n (by omega), ?_⟩
  intro t ht
  have hOK := shapeOK_of_mem n 0 n (by omega) hn t ht
  have h := (shapeOK_leaves t 0 n hOK).2
  simpa using h

theorem claim_C2_witness :
    1 ≤ 5 ∧
    ((calculate_parenthesisations 0 5).length = catalan (5 - 1) ∧
      (calculate_parenthesisations 0 5).Nodup ∧
      ∀ t ∈ calculate_parenthesisations 0 5, leavesOf t = List.range' 0 5) :=
  ⟨by decide, claim_C2 5 (by decide)⟩

/-- Claim C9: every tree returned by calculate_parenthesisations over
[0, n) is well-formed (shapeOK: every binary node formed at a split
boundary m carries operator slot m-1), and as a consequence its operator
slots are a permutation of 0..n-2, so each of the n-1 slots is referenced
exactly once per full tree. -/
theorem claim_C9 (n : Nat) (hn : 1 ≤ n) :
    ∀ t ∈ calculate_parenthesisations 0 n,
      shapeOK t 0 n = true ∧
      (opsOf t).Perm (List.range' 0 (n - 1)) ∧
      ∀ j, j < n - 1 → (opsOf t).count j = 1 := by
  intro t ht
  have hOK := shapeOK_of_mem n 0 n (by omega) hn t ht
  have hperm : (opsOf t).Perm (List.range' 0 (n - 1)) := by
    have h := shapeOK_opsOf t 0 n hOK
    simpa using h
  refine ⟨hOK, hperm, ?_⟩
  intro j hj
  rw [hperm.count_eq]
  have hmem : j ∈ List.range' 0 (n - 1) := by
    rw [List.mem_range'_1]
    omega
  have hnd : (List.range' 0 (n - 1)).Nodup := List.nodup_range' _ _
  have hle := List.nodup_iff_count_le_one.mp hnd j
  have hge : 0 < (List.range' 0 (n - 1)).count j := List.count_pos_iff.mpr hmem
  omega

theorem claim_C9_witness :
    1 ≤ 3 ∧
    ∀ t ∈ calculate_parenthesisations 0 3,
      shapeOK t 0 3 = true ∧
      (opsOf t).Perm (List.range' 0 (3 - 1)) ∧
      ∀ j, j < 3 - 1 → (opsOf t).count j = 1 :=
  ⟨by decide, claim_C9 3 (by decide)⟩

/-- Truncating division decomposes into the sign product and the quotient
of magnitudes: division truncates toward zero. -/
theorem tdiv_sign_natAbs (a b : Int) :
    Int.tdiv a b = a.sign * b.sign * ((a.natAbs / b.natAbs : Nat) : Int) := by
  rcases a with m | m <;> rcases b with n | n
  · rcases m with _ | m <;> rcases n with _ | n <;>
      simp [Int.tdiv, Int.sign, Int.natAbs, Nat.div_zero, Nat.zero_div]
  · rcases m with _ | m <;>
      simp [Int.tdiv, Int.sign, Int.natAbs, Nat.zero_div]
  · rcases n with _ | n <;>
      simp [Int.tdiv, Int.sign, Int.natAbs, Nat.div_zero]
  · simp [Int.tdiv, Int.sign, Int.natAbs]

/-- Claim C5: eval() on a Binary node whose operator slot holds DIV is
undefined exactly when a subtree is undefined or the right value is 0;
otherwise it is the truncated-toward-zero quotient (Int.tdiv, the i32 /
semantics): its magnitude is the Nat quotient of the magnitudes and its
sign the product of signs.  An undefined evaluation leaves the search
state untouched (it is skipped, never an abort). -/
theorem claim_C5 (ints : List Int) (ops : List Operation) (l r : STree) (o : Nat)
    (hDIV : ops.getD o .ADD = .DIV) :
    (evalT ints ops (.binary l r o) = none ↔
      evalT ints ops l = none ∨ evalT ints ops r = none ∨ evalT ints ops r = some 0) ∧
    (∀ a b : Int, evalT ints ops l = some a → evalT ints ops r = some b → b ≠ 0 →
      evalT ints ops (.binary l r o) = some (Int.tdiv a b) ∧
        Int.tdiv a b = a.sign * b.sign * ((a.natAbs / b.natAbs : Nat) : Int)) ∧
    (∀ (size : Nat) (st : SearchSt) (t : STree), evalT ints ops t = none →
      processAlt size ops ints st t = st) := by
  have hDIV2 : ops[o]?.getD Operation.ADD = Operation.DIV := by
    simpa [List.getD] using hDIV
  refine ⟨?_, ?_, ?_⟩
  · rcases hl : evalT ints ops l with _ | a <;>
      rcases hr : evalT ints ops r with _ | b
    · simp [evalT, hDIV2, hl, hr, Option.filter]
    · simp [evalT, hDIV2, hl, hr, Option.filter]
    · simp [evalT, hDIV2, hl, hr, Option.filter]
    · by_cases hb : b = 0 <;> simp [evalT, hDIV2, hl, hr, Option.filter, hb]
  · intro a b ha hb hb0
    constructor
    · simp [evalT, hDIV2, ha, hb, Option.filter, hb0]
    · exact tdiv_sign_natAbs a b
  · intro size st t ht
    simp [processAlt, ht]

theorem claim_C5_witness :
    ([Operation.DIV].getD 0 .ADD = .DIV) ∧
    evalT [-7, 2] [Operation.DIV] (.binary (.num 0) (.num 1) 0) = some (Int.tdiv (-7) 2) ∧
    Int.tdiv (-7) 2 = -3 := by
  have h := (claim_C5 [-7, 2] [Operation.DIV] (.num 0) (.num 1) 0 rfl).2.1
    (-7) 2 rfl rfl (by decide)
  exact ⟨rfl, h.1, by decide⟩

/-! ## Result-table update lemmas -/

theorem dictLookup_dictSet_self (dict : Dict) (v : Int) (e : Nat × List String) :
    ∀ e0, dictLookup dict v = some e0 →
      dictLookup (dictSet dict v e) v = some e := by
  induction dict with
  | nil => intro e0 h; simp [dictLookup] at h
  | cons x rest ih =>
    intro e0 h
    by_cases hx : x.1 = v
    · simp [dictLookup, dictSet, hx]
    · simp only [dictLookup, dictSet, if_neg hx] at h ⊢
      exact ih e0 h

theorem dictLookup_dictSet_other (dict : Dict) (v w : Int) (e : Nat × List String)
    (hvw : w ≠ v) :
    dictLookup (dictSet dict v e) w = dictLookup dict w := by
  induction dict with
  | nil => simp [dictLookup, dictSet]
  | cons x rest ih =>
    by_cases hx : x.1 = v
    · simp only [dictSet, if_pos hx, dictLookup]
      rw [if_neg (by omega), if_neg (by omega)]
    · simp only [dictSet, if_neg hx, dictLookup]
      by_cases hw : x.1 = w
      · rw [if_pos hw, if_pos hw]
      · rw [if_neg hw, if_neg hw]
        exact ih

/-- The dict component of processAlt, written as an explicit case split. -/
theorem processAlt_dict (size : Nat) (ops : List Operation) (ints : List Int)
    (st : SearchSt) (t : STree) :
    (processAlt size ops ints st t).dict =
      match evalT ints ops t with
      | none => st.dict
      | some v =>
        match dictLookup st.dict v with
        | none => (v, (size, [renderT ints ops t])) :: st.dict
        | some (sz, options) =>
          if sz = size then dictSet st.dict v (sz, options ++ [renderT ints ops t])
          else st.dict := by
  rcases hv : evalT ints ops t with _ | v
  · simp [processAlt, hv]
  · have hd : (if st.maximum_composed < v then
        { st with maximum_composed := v } else st).dict = st.dict := by
      by_cases h : st.maximum_composed < v <;> simp [h]
    rcases hl : dictLookup st.dict v with _ | ⟨sz, options⟩
    · simp only [processAlt, hv, hd, hl]
    · simp only [processAlt, hv, hd, hl]
      by_cases hs : sz = size <;> simp [hs, hd]

/-- After processAlt, an existing entry keeps its stored size; its string
list is unchanged unless the stored size equals the current size and the
evaluated value is this entry's key, in which case the rendered string is
appended. -/
theorem processAlt_lookup_some (size : Nat) (ops : List Operation) (ints : List Int)
    (st : SearchSt) (t : STree) (v : Int) (sz : Nat) (es : List String)
    (h : dictLookup st.dict v = some (sz, es)) :
    dictLookup (processAlt size ops ints st t).dict v =
      (if evalT ints ops t = some v ∧ sz = size
       then some (sz, es ++ [renderT ints ops t])
       else some (sz, es)) := by
  rw [processAlt_dict]
  rcases hv : evalT ints ops t with _ | w
  · dsimp only
    simp [h]
  · dsimp only
    by_cases hw : w = v
    · subst hw
      rw [h]
      dsimp only
      by_cases hs : sz = size
      · rw [if_pos hs]
        rw [dictLookup_dictSet_self st.dict w (sz, es ++ [renderT ints ops t]) (sz, es) h]
        simp [hs]
      · rw [if_neg hs, h]
        simp [hs]
    · rcases hl : dictLookup st.dict w with _ | ⟨sz2, es2⟩
      · dsimp only
        simp only [dictLookup, if_neg (show ¬ ((w : Int) = v) from hw)]
        rw [h]
        simp [hw]
      · dsimp only
        by_cases hs : sz2 = size
        · rw [if_pos hs]
          rw [dictLookup_dictSet_other st.dict w v _ (fun hc => hw hc.symm)]
          rw [h]
          simp [hw]
        · rw [if_neg hs, h]
          simp [hw]

/-- After processAlt, a missing entry appears exactly when the evaluated
value is its key, and then with the current size and the single rendered
string. -/
theorem processAlt_lookup_none (size : Nat) (ops : List Operation) (ints : List Int)
    (st : SearchSt) (t : STree) (v : Int)
    (h : dictLookup st.dict v = none) :
    dictLookup (processAlt size ops ints st t).dict v =
      (if evalT ints ops t = some v
       then some (size, [renderT ints ops t])
       else none) := by
  rw [processAlt_dict]
  rcases hv : evalT ints ops t with _ | w
  · dsimp only
    simp [h]
  · dsimp only
    by_cases hw : w = v
    · subst hw
      rw [h]
      dsimp only
      simp [dictLookup]
    · rcases hl : dictLookup st.dict w with _ | ⟨sz2, es2⟩
      · dsimp only
        simp only [dictLookup, if_neg (show ¬ ((w : Int) = v) from hw)]
        rw [h]
        simp [hw]
      · dsimp only
        by_cases hs : sz2 = size
        · rw [if_pos hs]
          rw [dictLookup_dictSet_other st.dict w v _ (fun hc => hw hc.symm)]
          rw [h]
          simp [hw]
        · rw [if_neg hs, h]
          simp [hw]

/-- A flat list of evaluation events (operator assignment, operand
assignment, alternative), processed left to right exactly as the nested
driver loops do. -/
def processEvents (size : Nat) (events : List (List Operation × List Int × STree))
    (st : SearchSt) : SearchSt :=
  events.foldl (fun st e => processAlt size e.1 e.2.1 st e.2.2) st

/-- Over any event sequence, an existing entry keeps its stored size and
its string list only ever grows by appending. -/
theorem processEvents_lookup_some (size : Nat)
    (events : List (List Operation × List Int × STree)) :
    ∀ (st : SearchSt) (v : Int) (sz : Nat) (es : List String),
      dictLookup st.dict v = some (sz, es) →
      ∃ es2, dictLookup (processEvents size events st).dict v = some (sz, es ++ es2) := by
  induction events with
  | nil =>
    intro st v sz es h
    exact ⟨[], by simpa [processEvents] using h⟩
  | cons e rest ih =>
    intro st v sz es h
    have h1 := processAlt_lookup_some size e.1 e.2.1 st e.2.2 v sz es h
    by_cases hc : evalT e.2.1 e.1 e.2.2 = some v ∧ sz = size
    · rw [if_pos hc] at h1
      obtain ⟨es2, h2⟩ := ih (processAlt size e.1 e.2.1 st e.2.2) v sz
        (es ++ [renderT e.2.1 e.1 e.2.2]) h1
      exact ⟨[renderT e.2.1 e.1 e.2.2] ++ es2, by
        simpa [processEvents, List.append_assoc] using h2⟩
    · rw [if_neg hc] at h1
      obtain ⟨es2, h2⟩ := ih (processAlt size e.1 e.2.1 st e.2.2) v sz es h1
      exact ⟨es2, by simpa [processEvents] using h2⟩

/-- A value is absent after processing an event sequence exactly when it
was absent before and no event evaluated to it. -/
theorem processEvents_lookup_none_iff (size : Nat)
    (events : List (List Operation × List Int × STree)) :
    ∀ (st : SearchSt) (v : Int),
      dictLookup (processEvents size events st).dict v = none ↔
        (dictLookup st.dict v = none ∧
          ∀ e ∈ events, evalT e.2.1 e.1 e.2.2 ≠ some v) := by
  induction events with
  | nil =>
    intro st v
    simp [processEvents]
  | cons e rest ih =>
    intro st v
    rw [show processEvents size (e :: rest) st =
        processEvents size rest (processAlt size e.1 e.2.1 st e.2.2) from rfl, ih]
    constructor
    · rintro ⟨h1, h2⟩
      rcases hb : dictLookup st.dict v with _ | ⟨sz, es⟩
      · have := processAlt_lookup_none size e.1 e.2.1 st e.2.2 v hb
        rw [this] at h1
        by_cases hc : evalT e.2.1 e.1 e.2.2 = some v
        · rw [if_pos hc] at h1; exact absurd h1 (by simp)
        · exact ⟨rfl, by
            intro x hx
            rcases List.mem_cons.mp hx with hx | hx
            · subst hx; exact hc
            · exact h2 x hx⟩
      · have := processAlt_lookup_some size e.1 e.2.1 st e.2.2 v sz es hb
        rw [this] at h1
        by_cases hc : evalT e.2.1 e.1 e.2.2 = some v ∧ sz = size
        · rw [if_pos hc] at h1; exact absurd h1 (by simp)
        · rw [if_neg hc] at h1; exact absurd h1 (by simp)
    · rintro ⟨h1, h2⟩
      have hne : evalT e.2.1 e.1 e.2.2 ≠ some v := h2 e (List.mem_cons_self e rest)
      have := processAlt_lookup_none size e.1 e.2.1 st e.2.2 v h1
      rw [if_neg hne] at this
      exact ⟨this, fun x hx => h2 x (List.mem_cons_of_mem e hx)⟩

/-- A value inserted during an event sequence is recorded with the current
size. -/
theorem processEvents_new_size (size : Nat)
    (events : List (List Operation × List Int × STree)) :
    ∀ (st : SearchSt) (v : Int) (sz : Nat) (es : List String),
      dictLookup st.dict v = none →
      dictLookup (processEvents size events st).dict v = some (sz, es) →
      sz = size := by
  induction events with
  | nil =>
    intro st v sz es h0 h1
    simp [processEvents] at h1
    rw [h0] at h1
    exact absurd h1 (by simp)
  | cons e rest ih =>
    intro st v sz es h0 h1
    rw [show processEvents size (e :: rest) st =
        processEvents size rest (processAlt size e.1 e.2.1 st e.2.2) from rfl] at h1
    have hstep := processAlt_lookup_none size e.1 e.2.1 st e.2.2 v h0
    by_cases hc : evalT e.2.1 e.1 e.2.2 = some v
    · rw [if_pos hc] at hstep
      obtain ⟨es2, h2⟩ := processEvents_lookup_some size rest _ v size
        [renderT e.2.1 e.1 e.2.2] hstep
      rw [h1] at h2
      injection h2 with h3
      have h4 : sz = (size, [renderT e.2.1 e.1 e.2.2] ++ es2).1 := congrArg Prod.fst h3
      simpa using h4
    · rw [if_neg hc] at hstep
      exact ih _ v sz es hstep h1

/-- Claim C4: the result-table update policy.  An existing entry never has
its stored size changed; the rendered string is appended exactly when the
current size equals the stored size; any expression produced at a size
different from the stored one (in particular strictly larger) leaves the
entry untouched; and over a whole event sequence the stored size persists
with the string list only growing. -/
theorem claim_C4 :
    (∀ (size : Nat) (ops : List Operation) (ints : List Int) (st : SearchSt)
        (t : STree) (v : Int) (sz : Nat) (es : List String),
      dictLookup st.dict v = some (sz, es) →
        dictLookup (processAlt size ops ints st t).dict v =
          (if evalT ints ops t = some v ∧ sz = size
           then some (sz, es ++ [renderT ints ops t])
           else some (sz, es))) ∧
    (∀ (size : Nat) (ops : List Operation) (ints : List Int) (st : SearchSt)
        (t : STree) (v : Int) (sz : Nat) (es : List String),
      dictLookup st.dict v = some (sz, es) → sz ≠ size →
        dictLookup (processAlt size ops ints st t).dict v = some (sz, es)) ∧
    (∀ (size : Nat) (events : List (List Operation × List Int × STree))
        (st : SearchSt) (v : Int) (sz : Nat) (es : List String),
      dictLookup st.dict v = some (sz, es) →
        ∃ es2, dictLookup (processEvents size events st).dict v = some (sz, es ++ es2)) := by
  refine ⟨?_, ?_, ?_⟩
  · intro size ops ints st t v sz es h
    exact processAlt_lookup_some size ops ints st t v sz es h
  · intro size ops ints st t v sz es h hne
    rw [processAlt_lookup_some size ops ints st t v sz es h,
      if_neg (fun hc => hne hc.2)]
  · intro size events st v sz es h
    exact processEvents_lookup_some size events st v sz es h

theorem claim_C4_witness :
    dictLookup (⟨[((3 : Int), (2, ["(1+2)"]))], 3⟩ : SearchSt).dict 3 = some (2, ["(1+2)"]) ∧
    dictLookup (processAlt 3 [.ADD, .ADD] [1, 1, 1]
      (⟨[((3 : Int), (2, ["(1+2)"]))], 3⟩ : SearchSt)
      (.binary (.num 0) (.binary (.num 1) (.num 2) 1) 0)).dict 3 = some (2, ["(1+2)"]) := by
  constructor
  · decide
  · have h := (claim_C4.2.1) 3 [.ADD, .ADD] [1, 1, 1]
      (⟨[((3 : Int), (2, ["(1+2)"]))], 3⟩ : SearchSt)
      (.binary (.num 0) (.binary (.num 1) (.num 2) 1) 0) 3 2 ["(1+2)"] (by decide) (by decide)
    exact h

/-- Claim C7 counterexample: adding an expression string that is already
present for the value at the same size is not a no-op; the push is
unconditional and produces a duplicate.  Processing the leaf expression
"2" for value 2 (size 1) against a table already holding exactly that
string yields the entry (1, ["2", "2"]). -/
theorem claim_C7_counterexample :
    dictLookup (processAlt 1 [] [(2 : Int)]
      (⟨[((2 : Int), (1, ["2"]))], 1⟩ : SearchSt) (STree.num 0)).dict 2 =
      some (1, ["2", "2"]) ∧ ¬ (["2", "2"] : List String).Nodup := by
  constructor
  · decide
  · decide

/-- Claim C7 (amended): when the evaluated value already has an entry whose
stored size equals the current size, the rendered expression string is
appended unconditionally — also when an identical string is already in the
stored list; the update performs no deduplication. -/
theorem claim_C7_amended (size : Nat) (ops : List Operation) (ints : List Int)
    (st : SearchSt) (t : STree) (v : Int) (es : List String)
    (hv : evalT ints ops t = some v)
    (h : dictLookup st.dict v = some (size, es)) :
    dictLookup (processAlt size ops ints st t).dict v =
      some (size, es ++ [renderT ints ops t]) := by
  rw [processAlt_lookup_some size ops ints st t v size es h, if_pos ⟨hv, rfl⟩]

theorem claim_C7_amended_witness :
    evalT [(2 : Int)] [] (STree.num 0) = some 2 ∧
    dictLookup (⟨[((2 : Int), (1, ["2"]))], 1⟩ : SearchSt).dict 2 = some (1, ["2"]) ∧
    dictLookup (processAlt 1 [] [(2 : Int)]
      (⟨[((2 : Int), (1, ["2"]))], 1⟩ : SearchSt) (STree.num 0)).dict 2 =
      some (1, ["2"] ++ ["2"]) := by
  refine ⟨by decide, by decide, ?_⟩
  exact claim_C7_amended 1 [] [(2 : Int)] (⟨[((2 : Int), (1, ["2"]))], 1⟩ : SearchSt)
    (STree.num 0) 2 ["2"] (by decide) (by decide)

/-! ## Odometer correctness: the operand counter -/

/-- The consecutive integers s, s+1, ..., s+k-1. -/
def intsFrom (s : Int) : Nat → List Int
  | 0 => []
  | k + 1 => s :: intsFrom (s + 1) k

/-- All operand assignments of the given length with digits in 1..=m, in
odometer order (slot 0 varies fastest). -/
def allVals (m : Int) : Nat → List (List Int)
  | 0 => [[]]
  | s + 1 => (allVals m s).flatMap fun t => (intsFrom 1 m.toNat).map fun d => d :: t

theorem intsFrom_length : ∀ (k : Nat) (s : Int), (intsFrom s k).length = k := by
  intro k
  induction k with
  | zero => intro s; rfl
  | succ k2 ih => intro s; simp [intsFrom, ih]

theorem intsFrom_mem :
    ∀ (k : Nat) (s x : Int), x ∈ intsFrom s k ↔ s ≤ x ∧ x < s + k := by
  intro k
  induction k with
  | zero =>
    intro s x
    simp only [intsFrom, List.not_mem_nil, false_iff]
    push_cast
    omega
  | succ k2 ih =>
    intro s x
    simp only [intsFrom, List.mem_cons, ih (s + 1) x]
    push_cast
    omega

theorem intsFrom_nodup : ∀ (k : Nat) (s : Int), (intsFrom s k).Nodup := by
  intro k
  induction k with
  | zero => intro s; simp [intsFrom]
  | succ k2 ih =>
    intro s
    simp only [intsFrom, List.nodup_cons]
    refine ⟨?_, ih (s + 1)⟩
    rw [intsFrom_mem]
    omega

theorem intsFrom_head? (k : Nat) (s : Int) (hk : 0 < k) :
    (intsFrom s k).head? = some s := by
  cases k with
  | zero => omega
  | succ k2 => rfl

theorem intsFrom_getLast? :
    ∀ (k : Nat) (s : Int), 0 < k → (intsFrom s k).getLast? = some (s + k - 1) := by
  intro k
  induction k with
  | zero => intro s h; omega
  | succ k2 ih =>
    intro s _
    cases k2 with
    | zero => simp [intsFrom]
    | succ k3 =>
      rw [show intsFrom s (k3 + 1 + 1) = s :: intsFrom (s + 1) (k3 + 1) from rfl]
      rw [show intsFrom (s + 1) (k3 + 1) = (s + 1) :: intsFrom (s + 1 + 1) k3 from rfl]
      rw [List.getLast?_cons_cons]
      rw [show (s + 1) :: intsFrom (s + 1 + 1) k3 = intsFrom (s + 1) (k3 + 1) from rfl]
      rw [ih (s + 1) (by omega)]
      congr 1
      push_cast
      ring

theorem intsFrom_ne_nil (k : Nat) (s : Int) (hk : 0 < k) : intsFrom s k ≠ [] := by
  cases k with
  | zero => omega
  | succ k2 => simp [intsFrom]

theorem incInts_replicate_max (m : Int) :
    ∀ k, incInts m (List.replicate k m) = none := by
  intro k
  induction k with
  | zero => rfl
  | succ k2 ih => simp [List.replicate, incInts, ih]

/-- Within one block (fixed tail), consecutive head digits are linked by
the operand-odometer step. -/
theorem intsFrom_block_chain (m : Int) (t : List Int) :
    ∀ (k : Nat) (s : Int), s + k ≤ m + 1 →
      List.Chain' (fun a b => incInts m a = some b)
        ((intsFrom s k).map fun d => d :: t) := by
  intro k
  induction k with
  | zero => intro s _; simp [intsFrom]
  | succ k2 ih =>
    intro s h
    cases k2 with
    | zero => simp [intsFrom]
    | succ k3 =>
      rw [show intsFrom s (k3 + 1 + 1) = s :: intsFrom (s + 1) (k3 + 1) from rfl,
        List.map_cons, List.chain'_cons']
      constructor
      · intro y hy
        rw [show intsFrom (s + 1) (k3 + 1) = (s + 1) :: intsFrom (s + 1 + 1) k3 from rfl,
          List.map_cons, List.head?_cons] at hy
        injection hy with hy2
        subst hy2
        have hsm : ¬ s = m := by
          push_cast at h
          omega
        simp [incInts, hsm]
      · exact ih (s + 1) (by push_cast at h ⊢; omega)

/-- Generic chaining of a flat list of nonempty blocks. -/
theorem chain'_flatMap {α β : Type} {R : α → α → Prop} (f : β → List α) :
    ∀ ts : List β, (∀ t ∈ ts, List.Chain' R (f t)) → (∀ t ∈ ts, f t ≠ []) →
      List.Chain' (fun t t2 => ∀ a ∈ (f t).getLast?, ∀ b ∈ (f t2).head?, R a b) ts →
      List.Chain' R (ts.flatMap f) := by
  intro ts
  induction ts with
  | nil => intro _ _ _; simp
  | cons t rest ih =>
    intro hblock hne hlink
    rw [List.flatMap_cons, List.chain'_append]
    rw [List.chain'_cons'] at hlink
    refine ⟨hblock t (List.mem_cons_self t rest), ?_, ?_⟩
    · exact ih (fun x hx => hblock x (List.mem_cons_of_mem t hx))
        (fun x hx => hne x (List.mem_cons_of_mem t hx)) hlink.2
    · intro x hx y hy
      cases rest with
      | nil => simp at hy
      | cons t2 rest2 =>
        rw [List.flatMap_cons, List.head?_append] at hy
        have hne2 : f t2 ≠ [] := hne t2 (by simp)
        rcases hh : (f t2).head? with _ | z
        · exact absurd (List.head?_eq_none_iff.mp hh) hne2
        · rw [hh] at hy
          simp only [Option.or_some] at hy
          injection hy with hy2
          subst hy2
          exact hlink.1 t2 (by simp) x (by simpa using hx) z hh

/-- The last element of a flat list of nonempty blocks is the last element
of the last block. -/
theorem flatMap_getLast? {α β : Type} (f : β → List α) :
    ∀ (ts : List β), (∀ t ∈ ts, f t ≠ []) →
      ∀ t0, ts.getLast? = some t0 →
        (ts.flatMap f).getLast? = (f t0).getLast? := by
  intro ts
  induction ts with
  | nil => intro _ t0 h; simp at h
  | cons t rest ih =>
    intro hne t0 h
    cases rest with
    | nil =>
      simp only [List.getLast?_singleton] at h
      injection h with h2
      subst h2
      simp [List.flatMap_cons]
    | cons t2 rest2 =>
      rw [List.getLast?_cons_cons] at h
      rw [List.flatMap_cons, List.getLast?_append]
      have hrec := ih (fun x hx => hne x (List.mem_cons_of_mem t hx)) t0 h
      rw [hrec]
      have hne0 : f t0 ≠ [] := by
        apply hne
        apply List.mem_cons_of_mem
        cases h2 : (t2 :: rest2).getLast? with
        | none => rw [h2] at h; exact absurd h (by simp)
        | some z =>
          rw [h2] at h
          injection h with h3
          subst h3
          exact List.mem_of_mem_getLast? h2
      rcases hh : (f t0).getLast? with _ | z
      · exact absurd (List.getLast?_eq_none_iff.mp hh) hne0
      · simp

theorem allVals_ne_nil (m : Int) (hm : 1 ≤ m) : ∀ s, allVals m s ≠ [] := by
  intro s
  induction s with
  | zero => simp [allVals]
  | succ s2 ih =>
    simp only [allVals, ne_eq, List.flatMap_eq_nil_iff, not_forall]
    rcases hA : allVals m s2 with _ | ⟨t, rest⟩
    · exact absurd hA ih
    · refine ⟨t, by simp, ?_⟩
      simp only [ne_eq, List.map_eq_nil_iff]
      exact intsFrom_ne_nil m.toNat 1 (by omega)

theorem allVals_length (m : Int) :
    ∀ s, (allVals m s).length = m.toNat ^ s := by
  intro s
  induction s with
  | zero => rfl
  | succ s2 ih =>
    simp only [allVals, List.length_flatMap]
    have hpt : ∀ t ∈ allVals m s2,
        (List.length ∘ fun t => (intsFrom 1 m.toNat).map fun d => d :: t) t = m.toNat := by
      intro t _
      simp [intsFrom_length]
    rw [List.map_congr_left hpt, sum_map_constant, ih, pow_succ]

theorem allVals_head? (m : Int) (hm : 1 ≤ m) :
    ∀ s, (allVals m s).head? = some (List.replicate s (1 : Int)) := by
  intro s
  induction s with
  | zero => rfl
  | succ s2 ih =>
    rcases hA : allVals m s2 with _ | ⟨t, rest⟩
    · exact absurd hA (allVals_ne_nil m hm s2)
    · rw [hA] at ih
      simp only [List.head?_cons] at ih
      injection ih with ih2
      simp only [allVals, hA, List.flatMap_cons, List.head?_append]
      have hblock : ((intsFrom 1 m.toNat).map fun d => d :: t).head? =
          some (1 :: t) := by
        rcases hk : m.toNat with _ | k
        · omega
        · simp [intsFrom]
      rw [hblock]
      simp [ih2, List.replicate_succ]

theorem allVals_getLast? (m : Int) (hm : 1 ≤ m) :
    ∀ s, (allVals m s).getLast? = some (List.replicate s m) := by
  intro s
  induction s with
  | zero => rfl
  | succ s2 ih =>
    rw [show allVals m (s2 + 1) =
        (allVals m s2).flatMap fun t => (intsFrom 1 m.toNat).map fun d => d :: t from rfl]
    rw [flatMap_getLast? _ (allVals m s2)
      (fun t _ => by
        simp only [ne_eq, List.map_eq_nil_iff]
        exact intsFrom_ne_nil m.toNat 1 (by omega))
      (List.replicate s2 m) ih]
    rw [List.getLast?_map, intsFrom_getLast? m.toNat 1 (by omega)]
    have hcast : (1 : Int) + m.toNat - 1 = m := by
      have := Int.toNat_of_nonneg (show (0 : Int) ≤ m by omega)
      omega
    rw [hcast]
    simp [List.replicate_succ]

theorem allVals_mem (m : Int) :
    ∀ (s : Nat) (x : List Int),
      x ∈ allVals m s ↔ x.length = s ∧ ∀ d ∈ x, 1 ≤ d ∧ d ≤ m := by
  intro s
  induction s with
  | zero =>
    intro x
    simp only [allVals, List.mem_singleton]
    constructor
    · rintro rfl; simp
    · rintro ⟨h1, _⟩
      exact List.eq_nil_of_length_eq_zero h1
  | succ s2 ih =>
    intro x
    simp only [allVals, List.mem_flatMap, List.mem_map]
    constructor
    · rintro ⟨t, ht, d, hd, rfl⟩
      rw [intsFrom_mem] at hd
      obtain ⟨hlen, hall⟩ := (ih t).mp ht
      have hdm : 1 ≤ d ∧ d ≤ m := by
        have := Int.toNat_of_nonneg (show (0 : Int) ≤ m by omega)
        omega
      refine ⟨by simp [hlen], ?_⟩
      intro e he
      rcases List.mem_cons.mp he with rfl | he2
      · exact hdm
      · exact hall e he2
    · rintro ⟨hlen, hall⟩
      cases x with
      | nil => simp at hlen
      | cons d t =>
        refine ⟨t, (ih t).mpr ⟨by simpa using hlen, fun e he =>
          hall e (List.mem_cons_of_mem d he)⟩, d, ?_, rfl⟩
        rw [intsFrom_mem]
        have hd := hall d (List.mem_cons_self d t)
        have hnn : (0 : Int) ≤ m := by omega
        have := Int.toNat_of_nonneg hnn
        omega

theorem allVals_nodup (m : Int) : ∀ s, (allVals m s).Nodup := by
  intro s
  induction s with
  | zero => simp [allVals]
  | succ s2 ih =>
    rw [show allVals m (s2 + 1) =
        (allVals m s2).flatMap fun t => (intsFrom 1 m.toNat).map fun d => d :: t from rfl,
      List.nodup_flatMap]
    constructor
    · intro t _
      apply List.Nodup.map
      · intro a b hab
        injection hab
      · exact intsFrom_nodup m.toNat 1
    · apply List.Pairwise.imp ?_ ih
      intro a b hab
      simp only [Function.onFun]
      intro x hx hx'
      rw [List.mem_map] at hx hx'
      obtain ⟨d, _, hd⟩ := hx
      obtain ⟨d', _, hd'⟩ := hx'
      rw [← hd] at hd'
      injection hd' with h1 h2
      exact hab h2.symm

theorem allVals_chain (m : Int) (hm : 1 ≤ m) :
    ∀ s, List.Chain' (fun a b => incInts m a = some b) (allVals m s) := by
  intro s
  induction s with
  | zero => simp [allVals]
  | succ s2 ih =>
    rw [show allVals m (s2 + 1) =
        (allVals m s2).flatMap fun t => (intsFrom 1 m.toNat).map fun d => d :: t from rfl]
    have hmm : ((1 : Int) + m.toNat) ≤ m + 1 := by
      have := Int.toNat_of_nonneg (show (0 : Int) ≤ m by omega)
      omega
    apply chain'_flatMap
    · intro t _
      exact intsFrom_block_chain m t m.toNat 1 hmm
    · intro t _
      simp only [ne_eq, List.map_eq_nil_iff]
      exact intsFrom_ne_nil m.toNat 1 (by omega)
    · apply List.Chain'.imp ?_ ih
      intro a b hab x hx y hy
      rw [List.getLast?_map, intsFrom_getLast? m.toNat 1 (by omega)] at hx
      have hcast : (1 : Int) + m.toNat - 1 = m := by
        have := Int.toNat_of_nonneg (show (0 : Int) ≤ m by omega)
        omega
      rw [hcast] at hx
      simp only [Option.map_some, Option.mem_def] at hx
      injection hx with hx2
      subst hx2
      have hblock : ((intsFrom 1 m.toNat).map fun d => d :: b).head? = some (1 :: b) := by
        rcases hk : m.toNat with _ | k
        · omega
        · simp [intsFrom]
      rw [hblock] at hy
      simp only [Option.mem_def] at hy
      injection hy with hy2
      subst hy2
      simp [incInts, hab]

/-- A run of the step function along a chained list that ends in a
terminal state reproduces the list, with fuel equal to its length. -/
theorem runList_eq_of_chain {α : Type} (step : α → Option α) :
    ∀ (xs : List α) (x : α), xs.head? = some x →
      List.Chain' (fun a b => step a = some b) xs →
      (∀ a, xs.getLast? = some a → step a = none) →
      runList step xs.length x = xs := by
  intro xs
  induction xs with
  | nil => intro x hx _ _; simp at hx
  | cons y ys ih =>
    intro x hx hchain hlast
    simp only [List.head?_cons] at hx
    injection hx with hx2
    subst hx2
    cases ys with
    | nil =>
      have hstep : step y = none := hlast y rfl
      simp [runList, hstep]
    | cons z zs =>
      rw [List.chain'_cons'] at hchain
      have hstep : step y = some z := by
        have := hchain.1 z (by simp)
        exact this
      rw [show (y :: z :: zs).length = (z :: zs).length + 1 from rfl]
      rw [show runList step ((z :: zs).length + 1) y =
        y :: (match step y with
          | none => []
          | some b => runList step (z :: zs).length b) from rfl]
      rw [hstep]
      have hrec := ih z rfl hchain.2
        (fun a ha => hlast a (by rw [List.getLast?_cons_cons]; exact ha))
      dsimp only
      rw [hrec]

/-- The inner odometer visits exactly the operand assignments of allVals,
in order: every assignment with digits in 1..=m exactly once. -/
theorem visitedValAssigns_eq (m : Int) (hm : 1 ≤ m) (size : Nat) :
    visitedValAssigns m size = allVals m size := by
  unfold visitedValAssigns
  rw [← allVals_length m size]
  have hhead := allVals_head? m hm size
  have hchain := allVals_chain m hm size
  have hlast : ∀ a, (allVals m size).getLast? = some a → incInts m a = none := by
    intro a ha
    rw [allVals_getLast? m hm size] at ha
    injection ha with ha2
    subst ha2
    exact incInts_replicate_max m size
  exact runList_eq_of_chain (incInts m) (allVals m size) _ hhead hchain hlast

/-! ## Odometer correctness: the operator counter -/

/-- All operator assignments of the given length with digits in L, in
odometer order (slot 0 varies fastest). -/
def allOps (L : List Operation) : Nat → List (List Operation)
  | 0 => [[]]
  | n + 1 => (allOps L n).flatMap fun t => L.map fun o => o :: t

theorem lastPos_eq_none_iff (o : Operation) :
    ∀ L : List Operation, lastPos o L = none ↔ o ∉ L := by
  intro L
  induction L with
  | nil => simp [lastPos]
  | cons x xs ih =>
    simp only [lastPos, List.mem_cons]
    rcases h : lastPos o xs with _ | i
    · have hnx : o ∉ xs := ih.mp h
      by_cases hx : x = o
      · rw [if_pos hx]
        exact iff_of_false (by simp) (fun hc => hc (Or.inl hx.symm))
      · rw [if_neg hx]
        exact iff_of_true rfl (fun hc => hc.elim (fun he => hx he.symm) hnx)
    · have hmem : o ∈ xs := by
        by_contra hno
        rw [ih.mpr hno] at h
        exact absurd h (by simp)
      exact iff_of_false (by simp) (fun hc => hc (Or.inr hmem))

theorem lastPos_spec (o : Operation) :
    ∀ (L : List Operation) (i : Nat), lastPos o L = some i →
      ∃ h : i < L.length, L.get ⟨i, h⟩ = o := by
  intro L
  induction L with
  | nil => intro i h; simp [lastPos] at h
  | cons x xs ih =>
    intro i h
    simp only [lastPos] at h
    rcases h2 : lastPos o xs with _ | j
    · rw [h2] at h
      by_cases hx : x = o
      · rw [if_pos hx] at h
        injection h with h3
        subst h3
        exact ⟨by simp, hx⟩
      · rw [if_neg hx] at h
        exact absurd h (by simp)
    · rw [h2] at h
      injection h with h3
      subst h3
      obtain ⟨hj, hget⟩ := ih j h2
      exact ⟨by simpa using Nat.succ_lt_succ hj, hget⟩

theorem lastPos_nodup_get (L : List Operation) (hnd : L.Nodup) :
    ∀ (j : Fin L.length), lastPos (L.get j) L = some j.val := by
  induction L with
  | nil => intro j; exact absurd j.2 (by simp)
  | cons x xs ih =>
    intro j
    rcases j with ⟨jv, hj⟩
    rw [List.nodup_cons] at hnd
    cases jv with
    | zero =>
      have hx : x ∉ xs := hnd.1
      simp only [List.get, lastPos]
      rw [(lastPos_eq_none_iff x xs).mpr hx]
      simp
    | succ k =>
      have hk : k < xs.length := by simpa using hj
      have h2 := ih hnd.2 ⟨k, hk⟩
      simp only [List.get] at h2 ⊢
      simp only [lastPos, h2]

/-- One middle step of the operator odometer under a duplicate-free
dictionary: the digit at list position j advances to position j+1. -/
theorem incOps_mid_step (d : OperationDictionary) (hnd : d.operations.Nodup)
    (j : Nat) (hj : j + 1 < d.operations.length) (t : List Operation) :
    incOps d (d.operations.get ⟨j, by omega⟩ :: t) =
      .next (d.operations.get ⟨j + 1, hj⟩ :: t) := by
  have hneL : d.operations ≠ [] := by
    intro h
    rw [h] at hj
    simp at hj
  have hmx : d.max_operation = some (d.operations.getLast hneL) :=
    List.getLast?_eq_getLast d.operations hneL
  have hne_mx : d.operations.get ⟨j, by omega⟩ ≠ d.operations.getLast hneL := by
    rw [List.getLast_eq_get]
    intro heq
    have h2 := List.nodup_iff_injective_get.mp hnd heq
    have h3 : j = d.operations.length - 1 := congrArg Fin.val h2
    omega
  have hidx : d.index (d.operations.get ⟨j, by omega⟩) = some j :=
    lastPos_nodup_get d.operations hnd ⟨j, by omega⟩
  have hop : d.operation (j + 1) = some (d.operations.get ⟨j + 1, hj⟩) :=
    List.get?_eq_get hj
  simp only [incOps, hmx]
  rw [if_neg hne_mx]
  rw [hidx]
  dsimp only
  rw [hop]

/-- The step on a digit equal to max_operation defers to the tail, with the
digit reset to operation(0). -/
theorem incOps_max_step (d : OperationDictionary) (hne : d.operations ≠ [])
    (t : List Operation) :
    incOps d (d.operations.getLast hne :: t) =
      match incOps d t with
      | .finished => .finished
      | .next os2 => .next (d.operations.head hne :: os2)
      | .panicked => .panicked := by
  rcases d with ⟨L⟩
  cases L with
  | nil => exact absurd rfl hne
  | cons x xs =>
    have hmx : OperationDictionary.max_operation ⟨x :: xs⟩ =
        some ((x :: xs).getLast hne) := List.getLast?_eq_getLast _ hne
    simp only [incOps, hmx, if_true]
    rw [show OperationDictionary.operation ⟨x :: xs⟩ 0 = some x from rfl]
    rfl

theorem incOps_replicate_max (d : OperationDictionary) (hne : d.operations ≠ []) :
    ∀ k, incOps d (List.replicate k (d.operations.getLast hne)) = .finished := by
  intro k
  induction k with
  | zero => rfl
  | succ k2 ih =>
    rw [List.replicate_succ, incOps_max_step d hne, ih]

theorem ops_block_chain (d : OperationDictionary) (hnd : d.operations.Nodup)
    (t : List Operation) :
    List.Chain' (fun a b => incOps d a = .next b)
      (d.operations.map fun o => o :: t) := by
  rw [List.chain'_iff_get]
  intro i hi
  simp only [List.length_map] at hi
  rw [List.get_map, List.get_map]
  exact incOps_mid_step d hnd i (by omega) t

theorem allOps_ne_nil (L : List Operation) (hne : L ≠ []) : ∀ n, allOps L n ≠ [] := by
  intro n
  induction n with
  | zero => simp [allOps]
  | succ n2 ih =>
    simp only [allOps, ne_eq, List.flatMap_eq_nil_iff, not_forall]
    rcases hA : allOps L n2 with _ | ⟨t, rest⟩
    · exact absurd hA ih
    · exact ⟨t, by simp, by simpa using hne⟩

theorem allOps_length (L : List Operation) :
    ∀ n, (allOps L n).length = L.length ^ n := by
  intro n
  induction n with
  | zero => rfl
  | succ n2 ih =>
    simp only [allOps, List.length_flatMap]
    have hpt : ∀ t ∈ allOps L n2,
        (List.length ∘ fun t => L.map fun o => o :: t) t = L.length := by
      intro t _
      simp
    rw [List.map_congr_left hpt, sum_map_constant, ih, pow_succ]

theorem allOps_mem (L : List Operation) :
    ∀ (n : Nat) (x : List Operation),
      x ∈ allOps L n ↔ x.length = n ∧ ∀ o ∈ x, o ∈ L := by
  intro n
  induction n with
  | zero =>
    intro x
    simp only [allOps, List.mem_singleton]
    constructor
    · rintro rfl; simp
    · rintro ⟨h1, _⟩
      exact List.eq_nil_of_length_eq_zero h1
  | succ n2 ih =>
    intro x
    simp only [allOps, List.mem_flatMap, List.mem_map]
    constructor
    · rintro ⟨t, ht, o, ho, rfl⟩
      obtain ⟨hlen, hall⟩ := (ih t).mp ht
      refine ⟨by simp [hlen], ?_⟩
      intro e he
      rcases List.mem_cons.mp he with rfl | he2
      · exact ho
      · exact hall e he2
    · rintro ⟨hlen, hall⟩
      cases x with
      | nil => simp at hlen
      | cons o t =>
        exact ⟨t, (ih t).mpr ⟨by simpa using hlen, fun e he =>
          hall e (List.mem_cons_of_mem o he)⟩, o, hall o (List.mem_cons_self o t), rfl⟩

theorem allOps_nodup (L : List Operation) (hnd : L.Nodup) :
    ∀ n, (allOps L n).Nodup := by
  intro n
  induction n with
  | zero => simp [allOps]
  | succ n2 ih =>
    rw [show allOps L (n2 + 1) = (allOps L n2).flatMap fun t => L.map fun o => o :: t
      from rfl, List.nodup_flatMap]
    constructor
    · intro t _
      apply List.Nodup.map
      · intro a b hab
        injection hab
      · exact hnd
    · apply List.Pairwise.imp ?_ ih
      intro a b hab
      simp only [Function.onFun]
      intro x hx hx'
      rw [List.mem_map] at hx hx'
      obtain ⟨o, _, ho⟩ := hx
      obtain ⟨o', _, ho'⟩ := hx'
      rw [← ho] at ho'
      injection ho' with h1 h2
      exact hab h2.symm

theorem allOps_head? (L : List Operation) (hne : L ≠ []) :
    ∀ n, (allOps L n).head? = some (List.replicate n (L.head hne)) := by
  intro n
  induction n with
  | zero => rfl
  | succ n2 ih =>
    rcases hA : allOps L n2 with _ | ⟨t, rest⟩
    · exact absurd hA (allOps_ne_nil L hne n2)
    · rw [hA] at ih
      simp only [List.head?_cons] at ih
      injection ih with ih2
      simp only [allOps, hA, List.flatMap_cons, List.head?_append]
      rw [List.head?_map, List.head?_eq_head hne]
      simp [ih2, List.replicate_succ]

theorem allOps_getLast? (L : List Operation) (hne : L ≠ []) :
    ∀ n, (allOps L n).getLast? = some (List.replicate n (L.getLast hne)) := by
  intro n
  induction n with
  | zero => rfl
  | succ n2 ih =>
    rw [show allOps L (n2 + 1) = (allOps L n2).flatMap fun t => L.map fun o => o :: t
      from rfl]
    rw [flatMap_getLast? _ (allOps L n2)
      (fun t _ => by simpa using hne) (List.replicate n2 (L.getLast hne)) ih]
    rw [List.getLast?_map, List.getLast?_eq_getLast L hne]
    simp [List.replicate_succ]

theorem allOps_chain (d : OperationDictionary) (hnd : d.operations.Nodup)
    (hne : d.operations ≠ []) :
    ∀ n, List.Chain' (fun a b => incOps d a = .next b) (allOps d.operations n) := by
  intro n
  induction n with
  | zero => simp [allOps]
  | succ n2 ih =>
    rw [show allOps d.operations (n2 + 1) =
        (allOps d.operations n2).flatMap fun t => d.operations.map fun o => o :: t
      from rfl]
    apply chain'_flatMap
    · intro t _
      exact ops_block_chain d hnd t
    · intro t _
      simpa using hne
    · apply List.Chain'.imp ?_ ih
      intro a b hab x hx y hy
      rw [List.getLast?_map, List.getLast?_eq_getLast d.operations hne] at hx
      simp only [Option.map_some, Option.mem_def] at hx
      injection hx with hx2
      subst hx2
      rw [List.head?_map, List.head?_eq_head hne] at hy
      simp only [Option.map_some, Option.mem_def] at hy
      injection hy with hy2
      subst hy2
      rw [incOps_max_step d hne a, hab]

/-- A run of the operator odometer along a chained list ending in a
finished state reproduces the list, with any fuel at least its length, and
reports no panic. -/
theorem runOps_eq_of_chain (d : OperationDictionary) :
    ∀ (xs : List (List Operation)) (x : List Operation), xs.head? = some x →
      List.Chain' (fun a b => incOps d a = .next b) xs →
      (∀ a, xs.getLast? = some a → incOps d a = .finished) →
      ∀ fuel, xs.length ≤ fuel → runOps d fuel x = (xs, false) := by
  intro xs
  induction xs with
  | nil => intro x hx _ _ _ _; simp at hx
  | cons y ys ih =>
    intro x hx hchain hlast fuel hfuel
    simp only [List.head?_cons] at hx
    injection hx with hx2
    subst hx2
    cases fuel with
    | zero => simp at hfuel
    | succ f =>
      cases ys with
      | nil =>
        have hstep : incOps d y = .finished := hlast y rfl
        simp [runOps, hstep]
      | cons z zs =>
        rw [List.chain'_cons'] at hchain
        have hstep : incOps d y = .next z := hchain.1 z (by simp)
        have hrec := ih z rfl hchain.2
          (fun a ha => hlast a (by rw [List.getLast?_cons_cons]; exact ha))
          f (by simpa using hfuel)
        simp only [runOps, hstep, hrec]

/-- Under a duplicate-free operator list starting with "+", the outer
odometer visits exactly the assignments of allOps, in order, without
panicking: the ADD-initialised slots coincide with the all-first-operator
start state. -/
theorem visitedOpAssigns_good (d : OperationDictionary) (hnd : d.operations.Nodup)
    (hhead : d.operations.head? = some Operation.ADD) (size : Nat) :
    visitedOpAssigns d size = allOps d.operations (size - 1) ∧
    sizePanics d size = false := by
  have hne : d.operations ≠ [] := by
    intro h
    rw [h] at hhead
    exact absurd hhead (by simp)
  have hheadv : d.operations.head hne = Operation.ADD := by
    rw [List.head?_eq_head hne] at hhead
    injection hhead
  have hrun := runOps_eq_of_chain d (allOps d.operations (size - 1))
    (List.replicate (size - 1) Operation.ADD)
    (by rw [allOps_head? d.operations hne, hheadv])
    (allOps_chain d hnd hne (size - 1))
    (fun a ha => by
      rw [allOps_getLast? d.operations hne] at ha
      injection ha with ha2
      subst ha2
      exact incOps_replicate_max d hne (size - 1))
    (opsFuel d size)
    (by
      rw [allOps_length]
      unfold opsFuel
      exact Nat.pow_le_pow_left (Nat.le_succ _) _)
  unfold visitedOpAssigns sizePanics
  rw [show (make_options size).ops = List.replicate (size - 1) Operation.ADD from rfl, hrun]
  exact ⟨rfl, rfl⟩

/-! ## The driver as a fold over the visited combinations -/

/-- The (operator assignment, operand assignment) pairs visited by the two
nested counters for one size, operator outer, operand inner. -/
def visitedCombos (m : Int) (d : OperationDictionary) (size : Nat) :
    List (List Operation × List Int) :=
  (visitedOpAssigns d size).flatMap fun o =>
    (visitedValAssigns m size).map fun ints => (o, ints)

/-- The full evaluation events of one size: every alternative once per
visited combination, innermost. -/
def evalEvents (m : Int) (d : OperationDictionary) (size : Nat) :
    List (List Operation × List Int × STree) :=
  (visitedCombos m d size).flatMap fun c =>
    (make_options size).alternatives.map fun t => (c.1, c.2, t)

theorem foldl_flatMap {α β γ : Type} (f : α → List β) (g : γ → β → γ) :
    ∀ (l : List α) (init : γ),
      (l.flatMap f).foldl g init = l.foldl (fun acc x => (f x).foldl g acc) init := by
  intro l
  induction l with
  | nil => intro init; rfl
  | cons x xs ih =>
    intro init
    rw [List.flatMap_cons, List.foldl_append, ih]
    rfl

theorem foldl_congr_fun {α β : Type} {f g : β → α → β} (h : ∀ b a, f b a = g b a) :
    ∀ (l : List α) (init : β), l.foldl f init = l.foldl g init := by
  intro l
  induction l with
  | nil => intro init; rfl
  | cons x xs ih =>
    intro init
    rw [List.foldl_cons, List.foldl_cons, h, ih]

theorem sizeProcess_eq_combos (m : Int) (d : OperationDictionary) (size : Nat)
    (st : SearchSt) :
    sizeProcess m d size st =
      (visitedCombos m d size).foldl
        (fun st c => (make_options size).alternatives.foldl (processAlt size c.1 c.2) st)
        st := by
  unfold sizeProcess visitedCombos
  rw [foldl_flatMap]
  apply foldl_congr_fun
  intro b a
  unfold processOpAssign
  rw [List.foldl_map]

theorem sizeProcess_eq_events (m : Int) (d : OperationDictionary) (size : Nat)
    (st : SearchSt) :
    sizeProcess m d size st = processEvents size (evalEvents m d size) st := by
  rw [sizeProcess_eq_combos]
  unfold processEvents evalEvents
  rw [foldl_flatMap]
  apply foldl_congr_fun
  intro b a
  rw [List.foldl_map]

/-- Claim C3 (amended): under a duplicate-free operator list whose first
operator is "+", and max_number >= 1, the per-size search visits exactly
the |operators|^(size-1) x max_number^size combinations: the visited pair
list is the full product (operator assignment outer, operand assignment
inner), duplicate-free, of full length, containing every valid pair, and
the loop body evaluates every alternative once per visited pair.  No panic
occurs. -/
theorem claim_C3_amended (m : Int) (hm : 1 ≤ m) (d : OperationDictionary)
    (hnd : d.operations.Nodup) (hhead : d.operations.head? = some Operation.ADD)
    (size : Nat) :
    sizePanics d size = false ∧
    visitedCombos m d size =
      ((allOps d.operations (size - 1)).flatMap fun o =>
        (allVals m size).map fun i => (o, i)) ∧
    (visitedCombos m d size).Nodup ∧
    (visitedCombos m d size).length =
      d.operations.length ^ (size - 1) * m.toNat ^ size ∧
    (∀ (o : List Operation) (ints : List Int),
      o.length = size - 1 → (∀ x ∈ o, x ∈ d.operations) →
      ints.length = size → (∀ x ∈ ints, 1 ≤ x ∧ x ≤ m) →
      (o, ints) ∈ visitedCombos m d size) ∧
    (∀ st : SearchSt, sizeProcess m d size st =
      (visitedCombos m d size).foldl
        (fun st c => (make_options size).alternatives.foldl (processAlt size c.1 c.2) st)
        st) := by
  obtain ⟨hO, hP⟩ := visitedOpAssigns_good d hnd hhead size
  have hV := visitedValAssigns_eq m hm size
  have hcombos : visitedCombos m d size =
      ((allOps d.operations (size - 1)).flatMap fun o =>
        (allVals m size).map fun i => (o, i)) := by
    unfold visitedCombos
    rw [hO, hV]
  have hne : d.operations ≠ [] := by
    intro h
    rw [h] at hhead
    exact absurd hhead (by simp)
  refine ⟨hP, hcombos, ?_, ?_, ?_, fun st => sizeProcess_eq_combos m d size st⟩
  · rw [hcombos, List.nodup_flatMap]
    constructor
    · intro o _
      apply List.Nodup.map
      · intro a b hab
        injection hab
      · exact allVals_nodup m size
    · apply List.Pairwise.imp ?_ (allOps_nodup d.operations hnd (size - 1))
      intro a b hab
      simp only [Function.onFun]
      intro x hx hx'
      rw [List.mem_map] at hx hx'
      obtain ⟨i, _, hi⟩ := hx
      obtain ⟨i', _, hi'⟩ := hx'
      rw [← hi] at hi'
      injection hi' with h1 h2
      exact hab h1.symm
  · rw [hcombos, List.length_flatMap]
    have hpt : ∀ o ∈ allOps d.operations (size - 1),
        (List.length ∘ fun o => (allVals m size).map fun i => (o, i)) o =
          m.toNat ^ size := by
      intro o _
      simp [allVals_length m size]
    rw [List.map_congr_left hpt, sum_map_constant, allOps_length]
  · intro o ints ho1 ho2 hi1 hi2
    rw [hcombos, List.mem_flatMap]
    refine ⟨o, (allOps_mem d.operations (size - 1) o).mpr ⟨ho1, ho2⟩, ?_⟩
    rw [List.mem_map]
    exact ⟨ints, (allVals_mem m size ints).mpr ⟨hi1, hi2⟩, rfl⟩

theorem claim_C3_amended_witness :
    (1 : Int) ≤ 1 ∧
    ([Operation.ADD] : List Operation).Nodup ∧
    (⟨[Operation.ADD]⟩ : OperationDictionary).operations.head? = some Operation.ADD ∧
    visitedCombos 1 ⟨[Operation.ADD]⟩ 2 =
      ((allOps [Operation.ADD] 1).flatMap fun o => (allVals 1 2).map fun i => (o, i)) :=
  ⟨by decide, by decide, rfl,
    (claim_C3_amended 1 (by decide) ⟨[Operation.ADD]⟩ (by decide) rfl 2).2.1⟩

/-- Claim C3 counterexample: for the accepted configuration
operations="*,+" (two operators) at size 2, the outer counter visits only
one operator assignment instead of 2^(2-1) = 2: the slots start at ADD,
which is the maximum of this list, so the first advance immediately
finishes the outer loop, and the valid assignment [MULT] is never
visited. -/
theorem claim_C3_counterexample :
    OperationDictionary.new ["*", "+"] = some ⟨[Operation.MULT, Operation.ADD]⟩ ∧
    visitedOpAssigns ⟨[Operation.MULT, Operation.ADD]⟩ 2 = [[Operation.ADD]] ∧
    ([Operation.MULT].length = 2 - 1 ∧
      ∀ o ∈ [Operation.MULT], o ∈ [Operation.MULT, Operation.ADD]) ∧
    [Operation.MULT] ∉ visitedOpAssigns ⟨[Operation.MULT, Operation.ADD]⟩ 2 ∧
    (visitedOpAssigns ⟨[Operation.MULT, Operation.ADD]⟩ 2).length ≠
      [Operation.MULT, Operation.ADD].length ^ (2 - 1) := by
  refine ⟨by decide, by decide, ⟨rfl, by decide⟩, by decide, by decide⟩

/-- Claim C6 counterexample: for the accepted configuration
operations="*,/" the operator slots of make_options hold ADD, not the
operator at index 0 of the configured list (MULT). -/
theorem claim_C6_counterexample :
    OperationDictionary.new ["*", "/"] = some ⟨[Operation.MULT, Operation.DIV]⟩ ∧
    (make_options 2).ops = [Operation.ADD] ∧
    OperationDictionary.operation ⟨[Operation.MULT, Operation.DIV]⟩ 0 =
      some Operation.MULT ∧
    ¬ (∀ o ∈ (make_options 2).ops,
        some o = OperationDictionary.operation ⟨[Operation.MULT, Operation.DIV]⟩ 0) := by
  refine ⟨by decide, rfl, rfl, ?_⟩
  intro h
  have := h Operation.ADD (by simp [make_options])
  simp [OperationDictionary.operation] at this

/-- Claim C6 (amended): at the start of every size's search the operator
slots are all initialised to ADD, regardless of the configured list; they
hold the operator at index 0 of the configured list exactly in the case
that the list starts with "+". -/
theorem claim_C6_amended (size : Nat) :
    (make_options size).ops = List.replicate (size - 1) Operation.ADD ∧
    (∀ d : OperationDictionary, d.operations.head? = some Operation.ADD →
      ∀ o ∈ (make_options size).ops, some o = d.operation 0) := by
  refine ⟨rfl, ?_⟩
  intro d hhead o ho
  have ho2 : o = Operation.ADD := List.eq_of_mem_replicate ho
  subst ho2
  have h0 : d.operation 0 = d.operations.head? := by
    unfold OperationDictionary.operation
    cases d.operations with
    | nil => rfl
    | cons x xs => rfl
  rw [h0, hhead]

theorem claim_C6_amended_witness :
    (make_options 3).ops = List.replicate 2 Operation.ADD ∧
    (⟨[Operation.ADD, Operation.MULT]⟩ : OperationDictionary).operations.head? =
      some Operation.ADD ∧
    Operation.ADD ∈ (make_options 3).ops ∧
    some Operation.ADD =
      OperationDictionary.operation ⟨[Operation.ADD, Operation.MULT]⟩ 0 :=
  ⟨(claim_C6_amended 3).1, rfl, by decide,
    (claim_C6_amended 3).2 ⟨[Operation.ADD, Operation.MULT]⟩ rfl Operation.ADD (by decide)⟩

/-! ## Panic safety of the operator counter (claim C10) -/

theorem incOps_no_panic (d : OperationDictionary) (hADD : Operation.ADD ∈ d.operations) :
    ∀ digits, (∀ o ∈ digits, o = Operation.ADD ∨ o ∈ d.operations) →
      incOps d digits ≠ .panicked := by
  have hne : d.operations ≠ [] := List.ne_nil_of_mem hADD
  intro digits
  induction digits with
  | nil => intro _; simp [incOps]
  | cons o os ih =>
    intro hall
    have ho : o ∈ d.operations := by
      rcases hall o (List.mem_cons_self o os) with h | h
      · rw [h]; exact hADD
      · exact h
    have hmx : d.max_operation = some (d.operations.getLast hne) :=
      List.getLast?_eq_getLast _ hne
    simp only [incOps, hmx]
    by_cases heq : o = d.operations.getLast hne
    · rw [if_pos heq]
      have h0 : d.operation 0 =
          some (d.operations.get ⟨0, List.length_pos.mpr hne⟩) :=
        List.get?_eq_get (List.length_pos.mpr hne)
      rw [h0]
      rcases hrec : incOps d os with _ | os2 | _
      · simp
      · simp
      · exact absurd hrec (ih (fun x hx => hall x (List.mem_cons_of_mem o hx)))
    · rw [if_neg heq]
      rcases hidx : d.index o with _ | i
      · exfalso
        have : o ∉ d.operations := (lastPos_eq_none_iff o d.operations).mp hidx
        exact this ho
      · dsimp only
        obtain ⟨hi, hgi⟩ := lastPos_spec o d.operations i hidx
        have hlt : i + 1 < d.operations.length := by
          rcases Nat.lt_or_ge (i + 1) d.operations.length with h | h
          · exact h
          · exfalso
            apply heq
            have hfin : (⟨i, hi⟩ : Fin d.operations.length) =
                ⟨d.operations.length - 1, by omega⟩ := Fin.ext (by simp; omega)
            rw [← hgi, hfin, ← List.getLast_eq_get]
        have hop : d.operation (i + 1) = some (d.operations.get ⟨i + 1, hlt⟩) :=
          List.get?_eq_get hlt
        rw [hop]
        simp

theorem incOps_next_closure (d : OperationDictionary) :
    ∀ digits digits', incOps d digits = .next digits' →
      (∀ o ∈ digits, o = Operation.ADD ∨ o ∈ d.operations) →
      ∀ o ∈ digits', o = Operation.ADD ∨ o ∈ d.operations := by
  intro digits
  induction digits with
  | nil => intro d' h; simp [incOps] at h
  | cons o os ih =>
    intro digits' h hall
    rcases hmx : d.max_operation with _ | mx
    · simp [incOps, hmx] at h
    · simp only [incOps, hmx] at h
      by_cases heq : o = mx
      · rw [if_pos heq] at h
        rcases h0 : d.operation 0 with _ | o0
        · rw [h0] at h; simp at h
        · rw [h0] at h
          dsimp only at h
          rcases hrec : incOps d os with _ | os2 | _
          · rw [hrec] at h; simp at h
          · rw [hrec] at h
            injection h with h2
            subst h2
            intro x hx
            rcases List.mem_cons.mp hx with rfl | hx2
            · right; exact List.get?_mem h0
            · exact ih os2 hrec (fun y hy => hall y (List.mem_cons_of_mem o hy)) x hx2
          · rw [hrec] at h; simp at h
      · rw [if_neg heq] at h
        rcases hidx : d.index o with _ | i
        · rw [hidx] at h; simp at h
        · rw [hidx] at h
          dsimp only at h
          rcases hop : d.operation (i + 1) with _ | o2
          · rw [hop] at h; simp at h
          · rw [hop] at h
            injection h with h2
            subst h2
            intro x hx
            rcases List.mem_cons.mp hx with rfl | hx2
            · right; exact List.get?_mem hop
            · exact hall x (List.mem_cons_of_mem o hx2)

theorem runOps_no_panic (d : OperationDictionary)
    (hADD : Operation.ADD ∈ d.operations) :
    ∀ fuel digits, (∀ o ∈ digits, o = Operation.ADD ∨ o ∈ d.operations) →
      (runOps d fuel digits).2 = false := by
  intro fuel
  induction fuel with
  | zero => intro digits _; rfl
  | succ f ih =>
    intro digits hall
    rcases hstep : incOps d digits with _ | ds2 | _
    · simp [runOps, hstep]
    · simp only [runOps, hstep]
      exact ih ds2 (incOps_next_closure d digits ds2 hstep hall)
    · exact absurd hstep (incOps_no_panic d hADD digits hall)

theorem sizePanics_false_of_ADD (d : OperationDictionary)
    (hADD : Operation.ADD ∈ d.operations) (size : Nat) :
    sizePanics d size = false := by
  unfold sizePanics
  apply runOps_no_panic d hADD
  intro o ho
  left
  exact List.eq_of_mem_replicate ho

theorem runSearch_ok (m : Int) (d : OperationDictionary)
    (hADD : Operation.ADD ∈ d.operations) :
    ∀ n, ∃ st, runSearch m d n = RunResult.ok st := by
  intro n
  induction n with
  | zero => exact ⟨initialState, rfl⟩
  | succ k ih =>
    obtain ⟨st, hst⟩ := ih
    refine ⟨sizeProcess m d (1 + k) st, ?_⟩
    unfold runSearch at hst ⊢
    have hr : List.range' 1 (k + 1) = List.range' 1 k ++ [1 + k] := by
      have := @List.range'_concat 1 1 k
      simpa using this
    rw [hr, List.foldl_append, hst]
    simp only [List.foldl_cons, List.foldl_nil]
    rw [sizePanics_false_of_ADD d hADD]
    simp

theorem runSearch_not_configError (m : Int) (d : OperationDictionary) :
    ∀ (n : Nat) (msg : String), runSearch m d n ≠ RunResult.configError msg := by
  intro n
  induction n with
  | zero => intro msg; simp [runSearch]
  | succ k ih =>
    intro msg
    unfold runSearch at ih ⊢
    have hr : List.range' 1 (k + 1) = List.range' 1 k ++ [1 + k] := by
      have := @List.range'_concat 1 1 k
      simpa using this
    rw [hr, List.foldl_append]
    simp only [List.foldl_cons, List.foldl_nil]
    rcases hprev : (List.range' 1 k).foldl
        (fun acc size =>
          match acc with
          | RunResult.ok st =>
            if sizePanics d size then RunResult.panicked
            else RunResult.ok (sizeProcess m d size st)
          | other => other)
        (RunResult.ok initialState) with msg2 | _ | st
    · exact absurd hprev (ih msg2)
    · rw [hprev]
      simp
    · rw [hprev]
      by_cases hp : sizePanics d (1 + k) <;> simp [hp]

/-! ## Characterisation of OperationDictionary::new (claims C8 and C10) -/

theorem new_foldl_spec :
    ∀ (opts : List String) (acc : List Operation × Bool),
      (opts.foldl
        (fun (acc : List Operation × Bool) s =>
          match parseOperation s with
          | some o => (acc.1 ++ [o], acc.2)
          | none => (acc.1, true))
        acc) =
      (acc.1 ++ opts.filterMap parseOperation,
        acc.2 || opts.any fun s => (parseOperation s).isNone) := by
  intro opts
  induction opts with
  | nil => intro acc; simp
  | cons s rest ih =>
    intro acc
    rcases hp : parseOperation s with _ | o
    · simp only [List.foldl_cons, hp, ih, List.filterMap_cons, List.any_cons]
      simp [hp]
    · simp only [List.foldl_cons, hp, ih, List.filterMap_cons, List.any_cons]
      simp [hp]

theorem new_eq (opts : List String) :
    OperationDictionary.new opts =
      if opts.any (fun s => (parseOperation s).isNone)
      then none
      else some ⟨opts.filterMap parseOperation⟩ := by
  unfold OperationDictionary.new
  rw [new_foldl_spec opts ([], false)]
  simp

theorem parseOperation_eq_none_iff (s : String) :
    parseOperation s = none ↔ s ∉ (["+", "-", "*", "/"] : List String) := by
  unfold parseOperation
  by_cases h1 : s = "+"
  · simp [h1]
  by_cases h2 : s = "-"
  · simp [h2]
  by_cases h3 : s = "*"
  · simp [h3]
  by_cases h4 : s = "/"
  · simp [h4]
  simp [h1, h2, h3, h4]

theorem new_mem_ADD (opts : List String) (d : OperationDictionary)
    (hplus : "+" ∈ opts) (hnew : OperationDictionary.new opts = some d) :
    Operation.ADD ∈ d.operations := by
  rw [new_eq] at hnew
  by_cases hbad : opts.any (fun s => (parseOperation s).isNone)
  · rw [if_pos hbad] at hnew
    exact absurd hnew (by simp)
  · rw [if_neg hbad] at hnew
    injection hnew with h2
    subst h2
    simp only [List.mem_filterMap]
    exact ⟨"+", hplus, rfl⟩

/-- Claim C10: provided the configured operator list contains "+", the
operator counter only ever applies OperationDictionary::index to operators
present in the dictionary, so advancing it never panics and the whole run
completes; and for the validation-accepted configuration
operations="*,/" with max_size = 2, the unwrap of the missing ADD index is
reached, because the operator slots are initialised to ADD regardless of
the configured list. -/
theorem claim_C10 :
    (∀ (m : Int) (max_size : Nat) (s : String),
      "+" ∈ splitComma s →
      runMain m max_size (some s) ≠ RunResult.panicked) ∧
    runMain 1 2 (some "*,/") = RunResult.panicked := by
  constructor
  · intro m max_size s hplus
    unfold runMain
    by_cases hm : m ≤ 0
    · simp [hm]
    · rw [if_neg hm]
      simp only [Option.getD_some]
      rcases hnew : OperationDictionary.new (splitComma s) with _ | d
      · simp
      · have hADD : Operation.ADD ∈ d.operations := new_mem_ADD _ d hplus hnew
        obtain ⟨st, hst⟩ := runSearch_ok m d hADD max_size
        dsimp only
        rw [hst]
        simp
  · decide

theorem claim_C10_witness :
    ("+" ∈ splitComma "+,*") ∧
    runMain 2 2 (some "+,*") ≠ RunResult.panicked ∧
    runMain 1 2 (some "*,/") = RunResult.panicked :=
  ⟨by decide, claim_C10.1 2 2 "+,*" (by decide), claim_C10.2⟩

theorem new_none_iff (opts : List String) :
    OperationDictionary.new opts = none ↔
      ∃ s ∈ opts, s ∉ (["+", "-", "*", "/"] : List String) := by
  rw [new_eq]
  by_cases hbad : opts.any (fun s => (parseOperation s).isNone)
  · rw [if_pos hbad]
    apply iff_of_true rfl
    rw [List.any_eq_true] at hbad
    obtain ⟨s, hs, hp⟩ := hbad
    exact ⟨s, hs, (parseOperation_eq_none_iff s).mp (Option.isNone_iff_eq_none.mp hp)⟩
  · rw [if_neg hbad]
    apply iff_of_false (by simp)
    rintro ⟨s, hs, hp⟩
    apply hbad
    rw [List.any_eq_true]
    exact ⟨s, hs, Option.isNone_iff_eq_none.mpr ((parseOperation_eq_none_iff s).mpr hp)⟩

theorem runMain_eq_of_pos (m : Int) (n : Nat) (oparg : Option String) (hm : ¬ m ≤ 0) :
    runMain m n oparg =
      match OperationDictionary.new (splitComma (oparg.getD "+,-,*,/")) with
      | none => RunResult.configError "unrecognised operations found, allowed=[+,-,*,/]"
      | some d => runSearch m d n := by
  unfold runMain
  rw [if_neg hm]

/-- Claim C8: configuration validation fails in exactly two cases:
OperationDictionary::new returns None iff some token is outside
{+, -, *, /}, and the run reports a configuration error (before any search
begins) iff max_number <= 0 or such a token occurs in the (defaulted)
operator list. -/
theorem claim_C8 :
    (∀ opts : List String,
      OperationDictionary.new opts = none ↔
        ∃ s ∈ opts, s ∉ (["+", "-", "*", "/"] : List String)) ∧
    (∀ (m : Int) (max_size : Nat) (oparg : Option String),
      (∃ msg, runMain m max_size oparg = RunResult.configError msg) ↔
        (m ≤ 0 ∨ ∃ s ∈ splitComma (oparg.getD "+,-,*,/"),
          s ∉ (["+", "-", "*", "/"] : List String))) := by
  refine ⟨new_none_iff, ?_⟩
  intro m max_size oparg
  by_cases hm : m ≤ 0
  · have h1 : runMain m max_size oparg = RunResult.configError "max_number must be > 0" := by
      unfold runMain
      rw [if_pos hm]
    exact iff_of_true ⟨_, h1⟩ (Or.inl hm)
  · rw [runMain_eq_of_pos m max_size oparg hm]
    rcases hnew : OperationDictionary.new (splitComma (oparg.getD "+,-,*,/")) with _ | d
    · apply iff_of_true ⟨_, rfl⟩
      exact Or.inr ((new_none_iff _).mp hnew)
    · apply iff_of_false
      · rintro ⟨msg, hmsg⟩
        exact runSearch_not_configError m d max_size msg hmsg
      · rintro (h | h)
        · exact hm h
        · have : OperationDictionary.new (splitComma (oparg.getD "+,-,*,/")) = none :=
            (new_none_iff _).mpr h
          rw [hnew] at this
          exact absurd this (by simp)

/-! ## Minimality of the recorded sizes (claim C1) -/

/-- v is attainable by some expression of the given size over operand
values 1..=m and operators from L: some shape over size leaves, with a
valid operand assignment and operator assignment, evaluates to v. -/
def Achievable (m : Int) (L : List Operation) (size : Nat) (v : Int) : Prop :=
  ∃ t ∈ calculate_parenthesisations 0 size, ∃ (ints : List Int) (ops : List Operation),
    ints.length = size ∧ (∀ x ∈ ints, 1 ≤ x ∧ x ≤ m) ∧
    ops.length = size - 1 ∧ (∀ o ∈ ops, o ∈ L) ∧
    evalT ints ops t = some v

/-- Under a good configuration, some event of the size's search evaluates
to v exactly when v is achievable at that size: the search is
exhaustive. -/
theorem events_achievable_iff (m : Int) (hm : 1 ≤ m) (d : OperationDictionary)
    (hnd : d.operations.Nodup) (hhead : d.operations.head? = some Operation.ADD)
    (size : Nat) (v : Int) :
    (∃ e ∈ evalEvents m d size, evalT e.2.1 e.1 e.2.2 = some v) ↔
      Achievable m d.operations size v := by
  obtain ⟨hO, _⟩ := visitedOpAssigns_good d hnd hhead size
  have hV := visitedValAssigns_eq m hm size
  unfold evalEvents visitedCombos
  rw [hO, hV]
  constructor
  · rintro ⟨e, he, hev⟩
    rw [List.mem_flatMap] at he
    obtain ⟨c, hc, he2⟩ := he
    rw [List.mem_map] at he2
    obtain ⟨t, ht, rfl⟩ := he2
    rw [List.mem_flatMap] at hc
    obtain ⟨o, ho, hc2⟩ := hc
    rw [List.mem_map] at hc2
    obtain ⟨ints, hints, rfl⟩ := hc2
    obtain ⟨ho1, ho2⟩ := (allOps_mem _ _ o).mp ho
    obtain ⟨hi1, hi2⟩ := (allVals_mem m size ints).mp hints
    exact ⟨t, ht, ints, o, hi1, hi2, ho1, ho2, hev⟩
  · rintro ⟨t, ht, ints, ops, hi1, hi2, ho1, ho2, hev⟩
    refine ⟨(ops, ints, t), ?_, hev⟩
    rw [List.mem_flatMap]
    refine ⟨(ops, ints), ?_, ?_⟩
    · rw [List.mem_flatMap]
      refine ⟨ops, (allOps_mem _ _ ops).mpr ⟨ho1, ho2⟩, ?_⟩
      rw [List.mem_map]
      exact ⟨ints, (allVals_mem m size ints).mpr ⟨hi1, hi2⟩, rfl⟩
    · rw [List.mem_map]
      exact ⟨t, ht, rfl⟩

/-- The invariant after processing sizes 1..t: a present entry has a size
in 1..t that no strictly smaller size can achieve, and an absent value is
achievable at no size in 1..t. -/
def SizeInv (m : Int) (L : List Operation) (t : Nat) (dict : Dict) : Prop :=
  (∀ v sz es, dictLookup dict v = some (sz, es) →
    1 ≤ sz ∧ sz ≤ t ∧ ∀ s2, 1 ≤ s2 → s2 < sz → ¬ Achievable m L s2 v) ∧
  (∀ v, dictLookup dict v = none →
    ∀ s2, 1 ≤ s2 → s2 ≤ t → ¬ Achievable m L s2 v)

theorem sizeInv_step (m : Int) (hm : 1 ≤ m) (d : OperationDictionary)
    (hnd : d.operations.Nodup) (hhead : d.operations.head? = some Operation.ADD)
    (t : Nat) (st : SearchSt) (hinv : SizeInv m d.operations t st.dict) :
    SizeInv m d.operations (t + 1) (sizeProcess m d (t + 1) st).dict := by
  rw [sizeProcess_eq_events]
  constructor
  · intro v sz es hsome
    rcases hb : dictLookup st.dict v with _ | ⟨sz0, es0⟩
    · have hsz : sz = t + 1 :=
        processEvents_new_size (t + 1) (evalEvents m d (t + 1)) st v sz es hb hsome
      subst hsz
      refine ⟨by omega, le_refl _, ?_⟩
      intro s2 h1 h2
      exact hinv.2 v hb s2 h1 (by omega)
    · obtain ⟨es2, h2⟩ :=
        processEvents_lookup_some (t + 1) (evalEvents m d (t + 1)) st v sz0 es0 hb
      rw [hsome] at h2
      injection h2 with h3
      have hsz : sz = sz0 := congrArg Prod.fst h3
      subst hsz
      obtain ⟨hsz1, hsz2, hmin⟩ := hinv.1 v sz es0 hb
      exact ⟨hsz1, by omega, hmin⟩
  · intro v hnone s2 h1 h2
    rw [processEvents_lookup_none_iff] at hnone
    obtain ⟨hb, hnoev⟩ := hnone
    rcases Nat.lt_or_ge s2 (t + 1) with hlt | hge
    · exact hinv.2 v hb s2 h1 (by omega)
    · have hs2 : s2 = t + 1 := by omega
      subst hs2
      intro hach
      obtain ⟨e, he, hev⟩ :=
        (events_achievable_iff m hm d hnd hhead (t + 1) v).mpr hach
      exact hnoev e he hev

theorem runSearch_inv (m : Int) (hm : 1 ≤ m) (d : OperationDictionary)
    (hnd : d.operations.Nodup) (hhead : d.operations.head? = some Operation.ADD) :
    ∀ n, ∃ st, runSearch m d n = RunResult.ok st ∧ SizeInv m d.operations n st.dict := by
  have hADD : Operation.ADD ∈ d.operations := by
    have hne : d.operations ≠ [] := by
      intro h
      rw [h] at hhead
      exact absurd hhead (by simp)
    have := List.head?_eq_head hne
    rw [this] at hhead
    injection hhead with h2
    rw [← h2]
    exact List.head_mem hne
  intro n
  induction n with
  | zero =>
    refine ⟨initialState, rfl, ?_, ?_⟩
    · intro v sz es h
      simp [initialState, dictLookup] at h
    · intro v _ s2 h1 h2
      omega
  | succ k ih =>
    obtain ⟨st, hst, hinv⟩ := ih
    refine ⟨sizeProcess m d (k + 1) st, ?_, sizeInv_step m hm d hnd hhead k st hinv⟩
    unfold runSearch at hst ⊢
    have hr : List.range' 1 (k + 1) = List.range' 1 k ++ [k + 1] := by
      have := @List.range'_concat 1 1 k
      simpa [Nat.add_comm] using this
    rw [hr, List.foldl_append, hst]
    simp only [List.foldl_cons, List.foldl_nil]
    rw [sizePanics_false_of_ADD d hADD]
    simp

/-- Claim C1 (amended): under max_number >= 1 and a duplicate-free operator
list starting with "+", every value v in the final table carries a size sz
with 1 <= sz <= max_size such that no expression of any size strictly
smaller than sz (over the same max_number and operator configuration)
evaluates to v.  For other accepted operator lists this minimality fails,
because the ADD-initialised operator counter skips assignments
(claim C3's counterexample); see the concrete counterexample below. -/
theorem claim_C1_amended (m : Int) (hm : 1 ≤ m) (d : OperationDictionary)
    (hnd : d.operations.Nodup) (hhead : d.operations.head? = some Operation.ADD)
    (max_size : Nat) (st : SearchSt)
    (hrun : runSearch m d max_size = RunResult.ok st)
    (v : Int) (sz : Nat) (es : List String)
    (hlook : dictLookup st.dict v = some (sz, es)) :
    1 ≤ sz ∧ sz ≤ max_size ∧
    ∀ s2, 1 ≤ s2 → s2 < sz → ¬ Achievable m d.operations s2 v := by
  obtain ⟨st2, hst2, hinv⟩ := runSearch_inv m hm d hnd hhead max_size
  rw [hrun] at hst2
  injection hst2 with h2
  subst h2
  exact hinv.1 v sz es hlook

set_option maxRecDepth 8192 in
theorem claim_C1_amended_witness :
    (1 : Int) ≤ 2 ∧
    ([Operation.ADD] : List Operation).Nodup ∧
    (⟨[Operation.ADD]⟩ : OperationDictionary).operations.head? = some Operation.ADD ∧
    runSearch 2 ⟨[Operation.ADD]⟩ 1 =
      RunResult.ok ⟨[((2 : Int), (1, ["2"])), ((1 : Int), (1, ["1"]))], 2⟩ ∧
    (1 ≤ 1 ∧ 1 ≤ 1 ∧
      ∀ s2, 1 ≤ s2 → s2 < 1 → ¬ Achievable 2 [Operation.ADD] s2 2) := by
  refine ⟨by decide, by decide, rfl, by decide, ?_⟩
  exact claim_C1_amended 2 (by decide) ⟨[Operation.ADD]⟩ (by decide) rfl 1
    ⟨[((2 : Int), (1, ["2"])), ((1 : Int), (1, ["1"]))], 2⟩ (by decide)
    2 1 ["2"] (by decide)

set_option maxRecDepth 8192 in
/-- Claim C1 counterexample: for the validation-accepted configuration
max_number=3, max_size=3, operations="*,+", the final table records value
9 with minimal size 3, yet the size-2 expression (3*3) over the same
configuration evaluates to 9: the recorded size is not minimal, because
the ADD-initialised operator counter never visits the all-MULT
assignment. -/
theorem claim_C1_counterexample :
    (match runMain 3 3 (some "*,+") with
      | RunResult.ok st => (dictLookup st.dict 9).map (fun e => e.1)
      | _ => none) = some 3 ∧
    Achievable 3 [Operation.MULT, Operation.ADD] 2 9 ∧
    OperationDictionary.new (splitComma "*,+") =
      some ⟨[Operation.MULT, Operation.ADD]⟩ ∧
    (2 : Nat) < 3 := by
  refine ⟨by decide, ?_, by decide, by decide⟩
  refine ⟨STree.binary (STree.num 0) (STree.num 1) 0, by decide, [3, 3], [Operation.MULT],
    rfl, by decide, rfl, by decide, by decide⟩

end Beltmatic
